import Mathlib

/-!
Verification development for the crate-digger pipeline
(functions/src/index 2.ts and src/lib/rekordboxParser.ts).

The TypeScript source is shallowly embedded: each JavaScript helper is
translated into an executable Lean function over lists of characters,
numbers that are only compared and rendered are modelled as Rat (for
parseFloat results) or Nat, and the external collaborators (Firestore,
the YouTube listing, axios, the Fuse.js searcher) are passed in as explicit
oracles so that the control flow of the repository code itself is the only
thing under study.
-/

/-- Either-or on options, mirroring the first-match-wins backtracking of a
JavaScript regex alternative: take the left result when it succeeded. -/
def oor {α : Type} (a b : Option α) : Option α :=
  match a with
  | some x => some x
  | none => b

/-- Line terminators, the characters a JavaScript regex dot (without the
s flag) refuses to match: LF, CR, LS (U+2028), PS (U+2029). -/
def lineTermChar (c : Char) : Bool :=
  c = '\n' || c = '\r' || c = ' ' || c = ' '

/-- The JavaScript regex class backslash-s (WhiteSpace plus LineTerminator):
tab, LF, VT, FF, CR, space, NBSP, Ogham space, the U+2000 to U+200A range,
LS, PS, NNBSP, MMSP, ideographic space and the BOM. -/
def isSpaceJS (c : Char) : Bool :=
  c = ' ' || c = '\t' || c = '\n' || c = '\u000b' || c = '\u000c' || c = '\r' ||
  c = ' ' || c = ' ' || (' ' ≤ c && c ≤ ' ') ||
  c = ' ' || c = ' ' || c = ' ' || c = ' ' ||
  c = '　' || c = '﻿'

/-- The JavaScript regex class backslash-w: ASCII letters, digits, underscore. -/
def isWordChar (c : Char) : Bool :=
  ('a' ≤ c && c ≤ 'z') || ('A' ≤ c && c ≤ 'Z') || ('0' ≤ c && c ≤ '9') || c = '_'

/-- Characters surviving the source replace of every non word, non space
character by the empty string. -/
def keepChar (c : Char) : Bool :=
  isWordChar c || isSpaceJS c

/-- The source replace of every whitespace run by one space: each maximal run
of whitespace characters becomes a single ASCII space.  The boolean argument
records whether the previous character belonged to a whitespace run. -/
def collapseSpaces : Bool → List Char → List Char
  | _, [] => []
  | prevSpace, c :: cs =>
    if isSpaceJS c then
      if prevSpace then collapseSpaces true cs
      else ' ' :: collapseSpaces true cs
    else c :: collapseSpaces false cs

/-- Leading-whitespace removal, one half of the JavaScript trim(). -/
def jsTrimLeft (l : List Char) : List Char :=
  l.dropWhile isSpaceJS

/-- Trailing-whitespace removal, the other half of the JavaScript trim():
drop the maximal whitespace suffix. -/
def jsTrimRight : List Char → List Char
  | [] => []
  | c :: cs =>
    let r := jsTrimRight cs
    if r.isEmpty && isSpaceJS c then [] else c :: r

/-- The JavaScript trim() on character lists. -/
def jsTrimList (l : List Char) : List Char :=
  jsTrimRight (jsTrimLeft l)

/-- The JavaScript trim() on strings. -/
def jsTrim (s : String) : String :=
  ⟨jsTrimList s.data⟩

/-- createSearchableString on character lists: lower-case, drop every
character outside word characters and whitespace, collapse whitespace runs
to one space, trim.  toLowerCase is modelled by Char.toLower (the ASCII case
mapping, the range the later word-character filter can keep). -/
def cssList (l : List Char) : List Char :=
  jsTrimList (collapseSpaces false ((l.map Char.toLower).filter keepChar))

/-- createSearchableString from functions/src/index 2.ts (identical to the
copy in src/lib/rekordboxParser.ts). -/
def createSearchableString (s : String) : String :=
  ⟨cssList s.data⟩

/-- No two adjacent characters of the list are both whitespace. -/
def noDoubleSpace : List Char → Bool
  | [] => true
  | [_] => true
  | a :: b :: rest => (!(isSpaceJS a && isSpaceJS b)) && noDoubleSpace (b :: rest)

/-- The list is empty or starts with a non-whitespace character. -/
def headNotSpace : List Char → Bool
  | [] => true
  | c :: _ => !isSpaceJS c

/-- The list is empty or ends with a non-whitespace character. -/
def lastNotSpace (l : List Char) : Bool :=
  match l.getLast? with
  | none => true
  | some c => !isSpaceJS c

/-! ## extractTrackInfo: the four-pattern cascade

Each JavaScript regex of the cascade is transcribed into a backtracking
matcher whose oor-order reproduces the regex engine's preference order:
lazy quantifiers try the continuation before extending, greedy quantifiers
extend before trying the continuation, optional groups try the group before
skipping it, and a greedy star of whitespace placed directly before a literal
that is not whitespace is compiled to dropWhile (giving characters back can
never help there).
-/

/-- Case-insensitive literal match (the i flag): consume pat (written in
lower case) from the front of the input, returning the remainder. -/
def ciStartsWith (pat : List Char) (l : List Char) : Option (List Char) :=
  match pat, l with
  | [], rest => some rest
  | _ :: _, [] => none
  | p :: ps, c :: cs => if c.toLower = p then ciStartsWith ps cs else none

/-- Pattern 1, tail of the optional bracket group: lazy dot-star, then a
closing bracket, then the end anchor.  True iff the remainder consists of
dot-matchable characters and ends with a closing square bracket. -/
def p1CloseBracket : List Char → Bool
  | [] => false
  | c :: cs => (c = ']' && cs.isEmpty) || (!lineTermChar c && p1CloseBracket cs)

/-- Pattern 1, the optional trailing tag: whitespace star, an opening square
bracket, lazy dot-star, a closing bracket, then the end anchor. -/
def p1BracketEnd (rest : List Char) : Bool :=
  match rest.dropWhile isSpaceJS with
  | '[' :: cs => p1CloseBracket cs
  | _ => false

/-- Pattern 1 after group 2: the greedy optional bracket group is tried
first, then skipped (in which case the end anchor must hold at once). -/
def p1End (g1 g2 rest : List Char) : Option (List Char × List Char) :=
  if p1BracketEnd rest then some (g1, g2)
  else if rest.isEmpty then some (g1, g2)
  else none

/-- Pattern 1 group 2, a lazy plus over the class of characters other than
an opening square bracket, an opening parenthesis and a line feed: after
each consumed character the continuation is tried before extending. -/
def p1G2 (g1 acc : List Char) : List Char → Option (List Char × List Char)
  | [] => none
  | c :: cs =>
    if c = '[' || c = '(' || c = '\n' then none
    else oor (p1End g1 (acc ++ [c]) cs) (p1G2 g1 (acc ++ [c]) cs)

/-- Pattern 1, the greedy whitespace star standing before group 2: group 2
accepts whitespace itself, so the star consumes greedily and gives back. -/
def p1SpacesG2 (g1 : List Char) : List Char → Option (List Char × List Char)
  | [] => p1G2 g1 [] []
  | c :: cs =>
    if isSpaceJS c then oor (p1SpacesG2 g1 cs) (p1G2 g1 [] (c :: cs))
    else p1G2 g1 [] (c :: cs)

/-- Pattern 1 after group 1: greedy whitespace star, the hyphen, then the
rest of the pattern. -/
def p1AfterG1 (g1 rest : List Char) : Option (List Char × List Char) :=
  match rest.dropWhile isSpaceJS with
  | '-' :: cs => p1SpacesG2 g1 cs
  | _ => none

/-- Pattern 1 group 1, a lazy plus over non-hyphen characters. -/
def p1TryFrom (g1 : List Char) : List Char → Option (List Char × List Char)
  | [] => p1AfterG1 g1 []
  | c :: cs =>
    oor (p1AfterG1 g1 (c :: cs))
      (if c = '-' then none else p1TryFrom (g1 ++ [c]) cs)

/-- The anchored match of cascade pattern 1 against the whole title,
returning the two captures. -/
def p1Match (s : List Char) : Option (List Char × List Char) :=
  match s with
  | [] => none
  | c :: cs => if c = '-' then none else p1TryFrom [c] cs

/-- Pattern 2 group 3 (the artist after by), a lazy dot-plus followed by the
end anchor. -/
def p2G3 (g1 g2 acc : List Char) :
    List Char → Option (List Char × List Char × Option (List Char))
  | [] => none
  | c :: cs =>
    if lineTermChar c then none
    else if cs.isEmpty then some (g1, g2, some (acc ++ [c]))
    else p2G3 g1 g2 (acc ++ [c]) cs

/-- Pattern 2, the greedy whitespace star between by and group 3: group 3
accepts whitespace, so the star gives back on failure. -/
def p2BySpaces (g1 g2 : List Char) :
    List Char → Option (List Char × List Char × Option (List Char))
  | [] => none
  | c :: cs =>
    if isSpaceJS c then oor (p2BySpaces g1 g2 cs) (p2G3 g1 g2 [] (c :: cs))
    else p2G3 g1 g2 [] (c :: cs)

/-- Pattern 2, body of the optional by-group: whitespace star, the literal
by (case-insensitively), whitespace star, group 3. -/
def p2ByGroup (g1 g2 rest : List Char) :
    Option (List Char × List Char × Option (List Char)) :=
  match ciStartsWith ['b', 'y'] (rest.dropWhile isSpaceJS) with
  | some r2 => p2BySpaces g1 g2 r2
  | none => none

/-- Pattern 2 after the closing parenthesis: the greedy optional by-group is
tried first, then skipped, in which case the end anchor must hold. -/
def p2AfterParen (g1 g2 rest : List Char) :
    Option (List Char × List Char × Option (List Char)) :=
  oor (p2ByGroup g1 g2 rest)
    (if rest.isEmpty then some (g1, g2, none) else none)

/-- Pattern 2 after group 2: whitespace star, the literal remix
(case-insensitively), a closing parenthesis, then the by-part. -/
def p2AfterG2 (g1 g2 rest : List Char) :
    Option (List Char × List Char × Option (List Char)) :=
  match ciStartsWith ['r', 'e', 'm', 'i', 'x'] (rest.dropWhile isSpaceJS) with
  | some (')' :: cs) => p2AfterParen g1 g2 cs
  | _ => none

/-- Pattern 2 group 2, a greedy plus over non-closing-parenthesis
characters: extend first, and only on failure stop here (needs at least one
consumed character). -/
def p2G2 (g1 acc : List Char) :
    List Char → Option (List Char × List Char × Option (List Char))
  | [] => if acc.isEmpty then none else p2AfterG2 g1 acc []
  | c :: cs =>
    if c = ')' then (if acc.isEmpty then none else p2AfterG2 g1 acc (c :: cs))
    else
      oor (p2G2 g1 (acc ++ [c]) cs)
        (if acc.isEmpty then none else p2AfterG2 g1 acc (c :: cs))

/-- Pattern 2 after group 1: whitespace star, an opening parenthesis, then
group 2 and the rest of the pattern. -/
def p2AfterG1 (g1 rest : List Char) :
    Option (List Char × List Char × Option (List Char)) :=
  match rest.dropWhile isSpaceJS with
  | '(' :: cs => p2G2 g1 [] cs
  | _ => none

/-- Pattern 2 group 1, a lazy dot-plus. -/
def p2TryFrom (g1 : List Char) :
    List Char → Option (List Char × List Char × Option (List Char))
  | [] => p2AfterG1 g1 []
  | c :: cs =>
    oor (p2AfterG1 g1 (c :: cs))
      (if lineTermChar c then none else p2TryFrom (g1 ++ [c]) cs)

/-- The anchored match of cascade pattern 2 against the whole title,
returning the captures (title, remix, optional artist). -/
def p2Match (s : List Char) :
    Option (List Char × List Char × Option (List Char)) :=
  match s with
  | [] => none
  | c :: cs => if lineTermChar c then none else p2TryFrom [c] cs

/-- Pattern 3 after group 3: whitespace star, the literal remix
(case-insensitively), a closing parenthesis, the end anchor. -/
def p3AfterG3 (g1 g2 g3 rest : List Char) :
    Option (List Char × List Char × List Char) :=
  match ciStartsWith ['r', 'e', 'm', 'i', 'x'] (rest.dropWhile isSpaceJS) with
  | some (')' :: cs) => if cs.isEmpty then some (g1, g2, g3) else none
  | _ => none

/-- Pattern 3 group 3, a greedy plus over non-closing-parenthesis
characters. -/
def p3G3 (g1 g2 acc : List Char) :
    List Char → Option (List Char × List Char × List Char)
  | [] => if acc.isEmpty then none else p3AfterG3 g1 g2 acc []
  | c :: cs =>
    if c = ')' then (if acc.isEmpty then none else p3AfterG3 g1 g2 acc (c :: cs))
    else
      oor (p3G3 g1 g2 (acc ++ [c]) cs)
        (if acc.isEmpty then none else p3AfterG3 g1 g2 acc (c :: cs))

/-- Pattern 3 after group 2: whitespace star, an opening parenthesis, then
group 3. -/
def p3AfterG2 (g1 g2 rest : List Char) :
    Option (List Char × List Char × List Char) :=
  match rest.dropWhile isSpaceJS with
  | '(' :: cs => p3G3 g1 g2 [] cs
  | _ => none

/-- Pattern 3 group 2, a lazy dot-plus. -/
def p3G2 (g1 acc : List Char) :
    List Char → Option (List Char × List Char × List Char)
  | [] => none
  | c :: cs =>
    if lineTermChar c then none
    else oor (p3AfterG2 g1 (acc ++ [c]) cs) (p3G2 g1 (acc ++ [c]) cs)

/-- Pattern 3, the greedy whitespace star after the hyphen (group 2 accepts
whitespace, so the star gives back). -/
def p3SpacesG2 (g1 : List Char) :
    List Char → Option (List Char × List Char × List Char)
  | [] => p3G2 g1 [] []
  | c :: cs =>
    if isSpaceJS c then oor (p3SpacesG2 g1 cs) (p3G2 g1 [] (c :: cs))
    else p3G2 g1 [] (c :: cs)

/-- Pattern 3 after group 1: whitespace star, the hyphen, the rest. -/
def p3AfterG1 (g1 rest : List Char) :
    Option (List Char × List Char × List Char) :=
  match rest.dropWhile isSpaceJS with
  | '-' :: cs => p3SpacesG2 g1 cs
  | _ => none

/-- Pattern 3 group 1, a lazy plus over non-hyphen characters. -/
def p3TryFrom (g1 : List Char) :
    List Char → Option (List Char × List Char × List Char)
  | [] => p3AfterG1 g1 []
  | c :: cs =>
    oor (p3AfterG1 g1 (c :: cs))
      (if c = '-' then none else p3TryFrom (g1 ++ [c]) cs)

/-- The anchored match of cascade pattern 3 against the whole title,
returning the captures (before-hyphen, after-hyphen, remix). -/
def p3Match (s : List Char) : Option (List Char × List Char × List Char) :=
  match s with
  | [] => none
  | c :: cs => if c = '-' then none else p3TryFrom [c] cs

/-- Pattern 4 group 2, a lazy dot-plus followed by the end anchor. -/
def p4G2 (g1 acc : List Char) : List Char → Option (List Char × List Char)
  | [] => none
  | c :: cs =>
    if lineTermChar c then none
    else if cs.isEmpty then some (g1, acc ++ [c])
    else p4G2 g1 (acc ++ [c]) cs

/-- Pattern 4, the greedy whitespace star after the hyphen (group 2 accepts
whitespace, so the star gives back). -/
def p4SpacesG2 (g1 : List Char) : List Char → Option (List Char × List Char)
  | [] => none
  | c :: cs =>
    if isSpaceJS c then oor (p4SpacesG2 g1 cs) (p4G2 g1 [] (c :: cs))
    else p4G2 g1 [] (c :: cs)

/-- Pattern 4 after group 1: whitespace star, the hyphen, the rest. -/
def p4AfterG1 (g1 rest : List Char) : Option (List Char × List Char) :=
  match rest.dropWhile isSpaceJS with
  | '-' :: cs => p4SpacesG2 g1 cs
  | _ => none

/-- Pattern 4 group 1, a lazy dot-plus. -/
def p4TryFrom (g1 : List Char) : List Char → Option (List Char × List Char)
  | [] => p4AfterG1 g1 []
  | c :: cs =>
    oor (p4AfterG1 g1 (c :: cs))
      (if lineTermChar c then none else p4TryFrom (g1 ++ [c]) cs)

/-- The anchored match of cascade pattern 4 (the loose fallback split)
against the whole title. -/
def p4Match (s : List Char) : Option (List Char × List Char) :=
  match s with
  | [] => none
  | c :: cs => if lineTermChar c then none else p4TryFrom [c] cs

/-- JavaScript truthiness of a nullable string: null and the empty string
are falsy. -/
def jsFalsyStr (x : Option String) : Bool :=
  match x with
  | none => true
  | some s => s.isEmpty

/-- Description capture: lazy dot-plus up to a line feed or the end of the
description (the non-capturing tail group of the description pattern). -/
def descCapture (acc : List Char) : List Char → Option (List Char)
  | [] => none
  | c :: cs =>
    if lineTermChar c then none
    else if cs.isEmpty || cs.head? = some '\n' then some (acc ++ [c])
    else descCapture (acc ++ [c]) cs

/-- Description pattern, the greedy whitespace star after the colon (the
capture accepts whitespace, so the star gives back). -/
def descSpaces : List Char → Option (List Char)
  | [] => none
  | c :: cs =>
    if isSpaceJS c then oor (descSpaces cs) (descCapture [] (c :: cs))
    else descCapture [] (c :: cs)

/-- Description pattern at one scan position: try the alternative artist
first, then by, each followed by a colon, whitespace and the capture. -/
def descTryAt (l : List Char) : Option (List Char) :=
  oor
    (match ciStartsWith ['a', 'r', 't', 'i', 's', 't', ':'] l with
     | some r => descSpaces r
     | none => none)
    (match ciStartsWith ['b', 'y', ':'] l with
     | some r => descSpaces r
     | none => none)

/-- The unanchored description pattern: scan left to right for the first
position where an artist or by line-prefix matches. -/
def descScan : List Char → Option (List Char)
  | [] => none
  | c :: cs => oor (descTryAt (c :: cs)) (descScan cs)

/-- The split of the title at the first hyphen or opening square bracket
used by the description fallback (first element of the split). -/
def splitTitleHead (t : List Char) : List Char :=
  t.takeWhile (fun c => !(c = '-' || c = '['))

/-- Structured record extracted from a raw video title. -/
structure ExtractedTrackInfo where
  artist : Option String
  trackTitle : Option String
  remix : Option String
deriving DecidableEq, Repr

/-- State of the three let-variables of extractTrackInfo after the pattern
cascade (a value of some empty string is an assigned but falsy variable). -/
def cascadeState (t : List Char) : Option String × Option String × Option String :=
  match p1Match t with
  | some (m1, m2) =>
    if !m1.isEmpty && !m2.isEmpty then
      (some ⟨jsTrimList m1⟩, some ⟨jsTrimList m2⟩, none)
    else (none, none, none)
  | none =>
    match p2Match t with
    | some (m1, m2, m3) =>
      if !m1.isEmpty && !m2.isEmpty then
        (match m3 with
         | some a => if (jsTrimList a).isEmpty then none else some (⟨jsTrimList a⟩ : String)
         | none => none,
         some ⟨jsTrimList m1⟩, some ⟨jsTrimList m2⟩)
      else (none, none, none)
    | none =>
      match p3Match t with
      | some (m1, m2, m3) =>
        if !m1.isEmpty && !m2.isEmpty then
          (if (jsTrimList m3).isEmpty then none else some (⟨jsTrimList m3⟩ : String),
           some ⟨jsTrimList m1⟩, some ⟨jsTrimList m2⟩)
        else (none, none, none)
      | none =>
        match p4Match t with
        | some (m1, m2) =>
          if !m1.isEmpty && !m2.isEmpty then
            (some ⟨jsTrimList m1⟩, some ⟨jsTrimList m2⟩, none)
          else (none, none, none)
        | none => (none, none, none)

/-- extractTrackInfo from functions/src/index 2.ts: the ordered pattern
cascade (remix-bearing patterns assign title, remix and optional artist;
the plain patterns assign artist and title), then the description fallback,
then the final title fallback.  In the cascade state the first component is
the artist variable, the second the trackTitle variable, the third remix. -/
def extractTrackInfo (title : String) (description : Option String) :
    ExtractedTrackInfo :=
  let st := cascadeState title.data
  let artist0 := st.1
  let trackTitle0 := st.2.1
  let remix0 := st.2.2
  let viaDesc :=
    if jsFalsyStr artist0 && jsFalsyStr trackTitle0 then
      match description with
      | some d =>
        if d.isEmpty then (artist0, trackTitle0)
        else
          match descScan d.data with
          | some m1 => (some (⟨jsTrimList m1⟩ : String),
              some (⟨jsTrimList (splitTitleHead title.data)⟩ : String))
          | none => (artist0, trackTitle0)
      | none => (artist0, trackTitle0)
    else (artist0, trackTitle0)
  let artist1 := viaDesc.1
  let trackTitle1 := viaDesc.2
  let trackTitle2 :=
    if jsFalsyStr trackTitle1 then some (jsTrim title) else trackTitle1
  ⟨artist1, trackTitle2, remix0⟩

/-! ## Fuzzy matching, retry policy, providers, and the two cloud functions -/

/-- One entry of the owned-track projection handed to the matcher. -/
structure UserTrack where
  searchableString : String
  id : String
deriving DecidableEq, Repr

/-- One entry of a Fuse.js result list: the matched item and its optional
score (includeScore is set, but the source still guards undefined). -/
structure FuseResult where
  item : UserTrack
  score : Option ℚ
deriving DecidableEq

/-- The Fuse.js searcher is an external library; it is passed in as an
oracle from the owned tracks and the query string to a result list.  Its
documented threshold contract (every returned score lies in the closed
interval from zero to the configured threshold) enters the theorems as a
hypothesis. -/
def FuseSearcher : Type :=
  List UserTrack → String → List FuseResult

/-- Math.round: round half toward positive infinity. -/
def jsRound (x : ℚ) : ℤ :=
  Int.floor (x + 1 / 2)

/-- Result of the fuzzy matcher. -/
structure MatchResult where
  matchId : Option String
  confidence : ℤ
deriving DecidableEq, Repr

/-- fuzzyMatchTrack from functions/src/index 2.ts: falsy artist or title
short-circuits to no match; otherwise normalize the combined query, run the
Fuse searcher, and convert the best result's score into a confidence. -/
def fuzzyMatchTrack (fuseSearch : FuseSearcher)
    (detectedArtist detectedTitle : Option String)
    (userTracks : List UserTrack) : MatchResult :=
  if jsFalsyStr detectedArtist || jsFalsyStr detectedTitle then ⟨none, 0⟩
  else
    let searchString :=
      createSearchableString (detectedArtist.getD "" ++ " " ++ detectedTitle.getD "")
    match fuseSearch userTracks searchString with
    | r :: _ =>
      match r.score with
      | some s => ⟨some r.item.id, max 0 (jsRound ((1 - s) * 100))⟩
      | none => ⟨none, 0⟩
    | [] => ⟨none, 0⟩

/-- Trace of one run of retryWithBackoff: the final outcome (error none is
the generic max-retries error thrown when no attempt ever ran), the number
of attempts made, and the list of sleeps taken, in milliseconds, in order
(the element at index i is the delay before attempt i + 2). -/
structure RetryTrace (ε α : Type) where
  result : Except (Option ε) α
  attemptsMade : ℕ
  delays : List ℕ

/-- Recursion for retryWithBackoff: attempt is the zero-based index of the
next attempt, remaining the number of loop iterations left, lastError the
last caught error.  A sleep of baseDelay times two to the attempt is taken
after a failed attempt unless it was the final one. -/
def retryAux (fn : ℕ → Except ε α) (baseDelay attempt : ℕ) (lastError : Option ε) :
    ℕ → RetryTrace ε α
  | 0 => ⟨.error lastError, 0, []⟩
  | remaining + 1 =>
    match fn attempt with
    | .ok v => ⟨.ok v, 1, []⟩
    | .error e =>
      let t := retryAux fn baseDelay (attempt + 1) (some e) remaining
      if remaining = 0 then ⟨t.result, t.attemptsMade + 1, t.delays⟩
      else ⟨t.result, t.attemptsMade + 1, baseDelay * 2 ^ attempt :: t.delays⟩

/-- retryWithBackoff from functions/src/index 2.ts, with the operation
modelled as a function from the zero-based attempt index to that attempt's
outcome. -/
def retryWithBackoff (fn : ℕ → Except ε α) (maxRetries baseDelay : ℕ) :
    RetryTrace ε α :=
  retryAux fn baseDelay 0 none maxRetries

/-- A Discogs marketplace price: the parseFloat of the value string and the
currency (the source renders both into the returned price string). -/
structure DiscogsPrice where
  value : ℚ
  currency : String
deriving DecidableEq, Repr

/-- One Discogs marketplace listing. -/
structure DiscogsListing where
  condition : String
  price : Option DiscogsPrice
deriving DecidableEq, Repr

/-- The ranked condition preference list of searchDiscogs. -/
def preferredConditions : List String :=
  ["Mint (M)", "Near Mint (NM or M-)", "Very Good Plus (VG+)", "Very Good (VG)"]

/-- The guard l.price and parseFloat(l.price.value) greater than zero. -/
def positivePrice (l : DiscogsListing) : Bool :=
  match l.price with
  | some p => decide (0 < p.value)
  | none => false

/-- listings.find of the first listing with the given condition and a
positive price. -/
def condCandidate (listings : List DiscogsListing) (condition : String) :
    Option DiscogsListing :=
  listings.find? (fun l => l.condition = condition && positivePrice l)

/-- The price value of a listing (zero when absent; only applied to
listings that passed the positive-price guard). -/
def priceValue (l : DiscogsListing) : ℚ :=
  match l.price with
  | some p => p.value
  | none => 0

/-- The preferred-conditions loop of searchDiscogs: for each condition in
rank order take the first positive-price listing with that condition, and
keep the running best when the new candidate is strictly cheaper
(bestPrice starts at Infinity). -/
def preferredFold (listings : List DiscogsListing) : Option DiscogsListing :=
  preferredConditions.foldl
    (fun best condition =>
      match condCandidate listings condition with
      | some l =>
        match best with
        | none => some l
        | some b => if priceValue l < priceValue b then some l else best
      | none => best)
    none

/-- Stable insertion of a later element after all earlier elements of less
or equal price. -/
def sortInsert (x : DiscogsListing) : List DiscogsListing → List DiscogsListing
  | [] => [x]
  | y :: ys => if priceValue y ≤ priceValue x then y :: sortInsert x ys else x :: y :: ys

/-- The stable ascending price sort used by the fallback (JavaScript
Array.prototype.sort with a numeric comparator is a stable sort). -/
def sortByPrice : List DiscogsListing → List DiscogsListing
  | [] => []
  | x :: xs => sortInsert x (sortByPrice xs)

/-- The listing-selection block of searchDiscogs: the preferred-conditions
loop, then the fallback to the cheapest positive-price listing of a
non-empty listings array. -/
def selectBestListing (listings : List DiscogsListing) : Option DiscogsListing :=
  match preferredFold listings with
  | some b => some b
  | none =>
    if 0 < listings.length then
      let availableListings := listings.filter positivePrice
      if 0 < availableListings.length then (sortByPrice availableListings).head?
      else none
    else none

/-- The Discogs HTTP API as an oracle: a release search keyed by query
string and zero-based attempt index, and a listings fetch keyed by release
id and attempt index.  An error value is an axios rejection; the release
ids are the result ids of the search response. -/
structure DiscogsApi where
  searchReleases : String → ℕ → Except Unit (List ℕ)
  listingsFetch : ℕ → ℕ → Except Unit (List DiscogsListing)

/-- The query string built by searchDiscogs. -/
def discogsSearchQuery (artist title : String) : String :=
  jsTrim (artist ++ " " ++ title)

/-- The value returned by searchDiscogs (url, price, condition), null when
the whole provider found nothing or failed. -/
structure DiscogsResult where
  url : Option String
  price : Option DiscogsPrice
  condition : Option String
deriving DecidableEq, Repr

/-- searchDiscogs from functions/src/index 2.ts: retry-wrapped release
search; empty results give null; otherwise the top release's url, plus a
retry-wrapped listings fetch whose failure degrades to the url alone, and
whose success runs the listing selection. -/
def searchDiscogs (api : DiscogsApi) (artist title : String) : Option DiscogsResult :=
  match (retryWithBackoff (api.searchReleases (discogsSearchQuery artist title)) 3 1000).result with
  | .error _ => none
  | .ok results =>
    match results with
    | [] => none
    | releaseId :: _ =>
      let releaseUrl := "https://www.discogs.com/release/" ++ toString releaseId
      match (retryWithBackoff (api.listingsFetch releaseId) 3 1000).result with
      | .error _ => some ⟨some releaseUrl, none, none⟩
      | .ok ls =>
        match selectBestListing ls with
        | some best => some ⟨some releaseUrl, best.price, some best.condition⟩
        | none => some ⟨some releaseUrl, none, none⟩

/-- Uppercase hexadecimal digit. -/
def toHexDigit (n : ℕ) : Char :=
  if n < 10 then Char.ofNat (48 + n) else Char.ofNat (55 + n)

/-- UTF-8 bytes of a Unicode scalar value. -/
def utf8Bytes (c : Char) : List ℕ :=
  let n := c.toNat
  if n < 128 then [n]
  else if n < 2048 then [192 + n / 64, 128 + n % 64]
  else if n < 65536 then [224 + n / 4096, 128 + (n / 64) % 64, 128 + n % 64]
  else [240 + n / 262144, 128 + (n / 4096) % 64, 128 + (n / 64) % 64, 128 + n % 64]

/-- The characters encodeURIComponent leaves unescaped: letters, digits,
hyphen, underscore, dot, exclamation mark, tilde, asterisk, apostrophe and
parentheses. -/
def uriUnreserved (c : Char) : Bool :=
  ('a' ≤ c && c ≤ 'z') || ('A' ≤ c && c ≤ 'Z') || ('0' ≤ c && c ≤ '9') ||
  c = '-' || c = '_' || c = '.' || c = '!' || c = '~' || c = '*' ||
  c = Char.ofNat 39 || c = '(' || c = ')'

/-- encodeURIComponent: percent-encode the UTF-8 bytes of every character
outside the unreserved set. -/
def encodeURIComponent (s : String) : String :=
  ⟨(s.data.map (fun c =>
      if uriUnreserved c then [c]
      else ((utf8Bytes c).map (fun b => ['%', toHexDigit (b / 16), toHexDigit (b % 16)])).flatten)).flatten⟩

/-- The value returned by a digital-store provider. -/
structure StoreResult where
  url : Option String
  price : Option DiscogsPrice
  format : Option String
  available : Bool
deriving DecidableEq, Repr

/-- searchBeatport from functions/src/index 2.ts: a deterministic search
URL, no price, no format, not available.  The body of the source's try
block cannot throw, so the catch branch returning null is unreachable. -/
def searchBeatport (artist title : String) : Option StoreResult :=
  let searchQuery := encodeURIComponent (artist ++ " " ++ title)
  let searchUrl := "https://www.beatport.com/search?q=" ++ searchQuery
  some ⟨some searchUrl, none, none, false⟩

/-- searchBandcamp from functions/src/index 2.ts, same shape. -/
def searchBandcamp (artist title : String) : Option StoreResult :=
  let searchQuery := encodeURIComponent (artist ++ " " ++ title)
  let searchUrl := "https://bandcamp.com/search?q=" ++ searchQuery
  some ⟨some searchUrl, none, none, false⟩

/-- searchJuno from functions/src/index 2.ts, same shape. -/
def searchJuno (artist title : String) : Option StoreResult :=
  let searchQuery := encodeURIComponent (artist ++ " " ++ title)
  let searchUrl := "https://www.junodownload.com/search/?q[all][]=" ++ searchQuery
  some ⟨some searchUrl, none, none, false⟩

/-- An HttpsError as the caller observes it: its code and its message. -/
structure HttpsError where
  code : String
  message : String
deriving DecidableEq, Repr

/-- One entry of the marketplaceResults array. -/
structure MarketplaceListing where
  store : String
  url : Option String
  price : Option DiscogsPrice
  format : Option String
  available : Bool
deriving DecidableEq, Repr

/-- The request payload of searchMarketplace (absent fields are none; a
non-string artist or title is not representable and is subsumed by none). -/
structure SMData where
  artist : Option String
  title : Option String
  remix : Option String
  userId : Option String
  processedTrackId : Option String
deriving DecidableEq, Repr

/-- The response of searchMarketplace. -/
structure SMResult where
  success : Bool
  marketplaceResults : List MarketplaceListing
  searched : String
deriving DecidableEq, Repr

/-- The result-assembly block of searchMarketplace: one push per provider
whose settled outcome is fulfilled with a non-null value, in registration
order.  All four provider functions are total, so every outcome of the
settle-all is fulfilled and the rejected branches of the source are
unreachable; a provider failure surfaces as a fulfilled null. -/
def buildMarketplaceResults (discogsResult : Option DiscogsResult)
    (beatportResult bandcampResult junoResult : Option StoreResult) :
    List MarketplaceListing :=
  (match discogsResult with
   | some v => [⟨"discogs", v.url, v.price, none, decide (v.price ≠ none)⟩]
   | none => []) ++
  (match beatportResult with
   | some v => [⟨"beatport", v.url, v.price, v.format, v.available⟩]
   | none => []) ++
  (match bandcampResult with
   | some v => [⟨"bandcamp", v.url, v.price, v.format, v.available⟩]
   | none => []) ++
  (match junoResult with
   | some v => [⟨"juno", v.url, v.price, v.format, v.available⟩]
   | none => [])

/-- searchMarketplace from functions/src/index 2.ts: authentication check,
input check (JavaScript falsiness: a missing or empty artist or title is
invalid), owner-identity check, then the combined query string (the remix
is appended only to it), the four provider calls on artist and title, and
the assembled results.  The Firestore write of the optional processed
track is a pure no-op here. -/
def searchMarketplace (api : DiscogsApi) (authUid : Option String)
    (data : SMData) : Except HttpsError SMResult :=
  match authUid with
  | none => .error ⟨"unauthenticated", "User must be authenticated to search marketplaces"⟩
  | some uid =>
    if jsFalsyStr data.artist || jsFalsyStr data.title then
      .error ⟨"invalid-argument", "Artist and title are required"⟩
    else if data.userId ≠ some uid then
      .error ⟨"permission-denied", "User ID does not match authenticated user"⟩
    else
      let artist := data.artist.getD ""
      let title := data.title.getD ""
      let searchQuery :=
        match data.remix with
        | some r =>
          if r.isEmpty then artist ++ " " ++ title
          else artist ++ " " ++ title ++ " " ++ r
        | none => artist ++ " " ++ title
      let discogsResult := searchDiscogs api artist title
      let beatportResult := searchBeatport artist title
      let bandcampResult := searchBandcamp artist title
      let junoResult := searchJuno artist title
      .ok ⟨true,
        buildMarketplaceResults discogsResult beatportResult bandcampResult junoResult,
        searchQuery⟩

/-- The capture class of the playlist-id patterns: letters, digits,
underscore, hyphen. -/
def playlistIdChar (c : Char) : Bool :=
  ('a' ≤ c && c ≤ 'z') || ('A' ≤ c && c ≤ 'Z') || ('0' ≤ c && c ≤ '9') ||
  c = '_' || c = '-'

/-- Case-sensitive literal match consuming pat from the front of l. -/
def litStartsWith (pat l : List Char) : Option (List Char) :=
  match pat, l with
  | [], rest => some rest
  | _ :: _, [] => none
  | p :: ps, c :: cs => if c = p then litStartsWith ps cs else none

/-- First playlist-id pattern at one scan position: a question mark or
ampersand, the literal list=, then a greedy non-empty id-character run. -/
def plTryAt1 (l : List Char) : Option (List Char) :=
  match l with
  | [] => none
  | c :: cs =>
    if c = '?' || c = '&' then
      match litStartsWith ['l', 'i', 's', 't', '='] cs with
      | some r =>
        let run := r.takeWhile playlistIdChar
        if run.isEmpty then none else some run
      | none => none
    else none

/-- Unanchored scan for the first playlist-id pattern. -/
def plScan1 : List Char → Option (List Char)
  | [] => none
  | c :: cs => oor (plTryAt1 (c :: cs)) (plScan1 cs)

/-- Second playlist-id pattern at one scan position: the literal
/playlist?list= then a greedy non-empty id-character run. -/
def plTryAt2 (l : List Char) : Option (List Char) :=
  match litStartsWith ['/', 'p', 'l', 'a', 'y', 'l', 'i', 's', 't', '?', 'l', 'i', 's', 't', '='] l with
  | some r =>
    let run := r.takeWhile playlistIdChar
    if run.isEmpty then none else some run
  | none => none

/-- Unanchored scan for the second playlist-id pattern. -/
def plScan2 : List Char → Option (List Char)
  | [] => none
  | c :: cs => oor (plTryAt2 (c :: cs)) (plScan2 cs)

/-- extractPlaylistId from functions/src/index 2.ts: the two patterns in
order, each returning its first capture when it matched. -/
def extractPlaylistId (url : String) : Option String :=
  match plScan1 url.data with
  | some cap => some ⟨cap⟩
  | none =>
    match plScan2 url.data with
    | some cap => some ⟨cap⟩
    | none => none

/-- One item of the YouTube playlist response, with the optional chaining
of the source flattened (a missing snippet is all fields none). -/
structure PlaylistItem where
  videoId : Option String
  title : Option String
  description : Option String
deriving DecidableEq, Repr

/-- The external world of processPlaylist: the authenticated caller, the
configured YouTube API key, the playlist listing keyed by playlist id, the
owned-track snapshot, and the Firestore-generated document ids. -/
structure PPWorld where
  authUid : Option String
  apiKeyConfigured : Bool
  playlistItems : String → List PlaylistItem
  userTracks : List UserTrack
  playlistDocId : String
  trackDocIds : ℕ → String

/-- The request payload of processPlaylist. -/
structure PPData where
  url : Option String
  userId : Option String
deriving DecidableEq, Repr

/-- One element of the tracks array of the processPlaylist response. -/
structure TrackSummary where
  id : String
  youtubeTitle : String
  detectedArtist : Option String
  detectedTitle : Option String
  confidence : ℤ
  owned : Bool
deriving DecidableEq, Repr

/-- The processPlaylist response. -/
structure PPResult where
  success : Bool
  playlistId : String
  tracksProcessed : ℕ
  tracks : List TrackSummary
deriving DecidableEq, Repr

/-- The per-item loop of processPlaylist: items with a falsy video id are
skipped (and consume no document id); each kept item is extracted, matched
and summarised. -/
def processItems (fuseSearch : FuseSearcher) (userTracks : List UserTrack)
    (trackDocIds : ℕ → String) : ℕ → List PlaylistItem → List TrackSummary
  | _, [] => []
  | k, item :: rest =>
    if jsFalsyStr item.videoId then
      processItems fuseSearch userTracks trackDocIds k rest
    else
      let videoTitle := item.title.getD ""
      let videoDescription := item.description.getD ""
      let trackInfo := extractTrackInfo videoTitle (some videoDescription)
      let m := fuzzyMatchTrack fuseSearch trackInfo.artist trackInfo.trackTitle userTracks
      ⟨trackDocIds k, videoTitle, trackInfo.artist, trackInfo.trackTitle,
        m.confidence, m.matchId ≠ none⟩
        :: processItems fuseSearch userTracks trackDocIds (k + 1) rest

/-- The try block of processPlaylist: missing API key and empty playlist
are thrown as HttpsErrors inside the block; otherwise the items are
processed and the summary returned.  Firestore writes are pure no-ops. -/
def processPlaylistTry (w : PPWorld) (fuseSearch : FuseSearcher)
    (playlistId : String) : Except HttpsError PPResult :=
  if !w.apiKeyConfigured then
    .error ⟨"failed-precondition", "YouTube API key not configured"⟩
  else
    let items := w.playlistItems playlistId
    if items.isEmpty then
      .error ⟨"not-found", "Playlist is empty or not accessible"⟩
    else
      let processed := processItems fuseSearch w.userTracks w.trackDocIds 0 items
      .ok ⟨true, w.playlistDocId, processed.length, processed⟩

/-- processPlaylist from functions/src/index 2.ts: the pre-try checks
(authentication, URL presence, owner identity, playlist-id extraction) and
then the try block, whose every thrown error the catch-all rewraps into an
internal HttpsError carrying the original message. -/
def processPlaylist (w : PPWorld) (fuseSearch : FuseSearcher)
    (data : PPData) : Except HttpsError PPResult :=
  match w.authUid with
  | none => .error ⟨"unauthenticated", "User must be authenticated to process playlists"⟩
  | some uid =>
    match data.url with
    | none => .error ⟨"invalid-argument", "YouTube playlist URL is required"⟩
    | some url =>
      if url.isEmpty then
        .error ⟨"invalid-argument", "YouTube playlist URL is required"⟩
      else if data.userId ≠ some uid then
        .error ⟨"permission-denied", "User ID does not match authenticated user"⟩
      else
        match extractPlaylistId url with
        | none => .error ⟨"invalid-argument", "Invalid YouTube playlist URL"⟩
        | some playlistId =>
          match processPlaylistTry w fuseSearch playlistId with
          | .ok r => .ok r
          | .error e =>
            .error ⟨"internal",
              if e.message.isEmpty then "Failed to process playlist" else e.message⟩

/-! ## Statement-side definitions for the claims -/

/-- Character set of the amended normalization claim: lowercase ASCII
letter, digit, underscore or space. -/
def cssCharOK (c : Char) : Bool :=
  ('a' ≤ c && c ≤ 'z') || ('0' ≤ c && c ≤ '9') || c = '_' || c = ' '

/-- Character set named by the original normalization claim: letter, digit
or whitespace (no underscore). -/
def cssCharClaimed (c : Char) : Bool :=
  ('a' ≤ c && c ≤ 'z') || ('A' ≤ c && c ≤ 'Z') || ('0' ≤ c && c ≤ '9') || isSpaceJS c

/-- Artist-part side condition of the hyphen-remix input family: no hyphen,
no opening parenthesis, no line terminator. -/
def c1ArtistOK (c : Char) : Bool :=
  !(c = '-') && !(c = '(') && !lineTermChar c

/-- Title-part side condition of the hyphen-remix input family: no opening
parenthesis, no line terminator. -/
def c1TitleOK (c : Char) : Bool :=
  !(c = '(') && !lineTermChar c

/-- Remix-part side condition of the hyphen-remix input family: no closing
parenthesis, no whitespace. -/
def c1RemixOK (c : Char) : Bool :=
  !(c = ')') && !isSpaceJS c

/-- Whether some preferred condition has a positive-price candidate. -/
def hasPreferredPositive (listings : List DiscogsListing) : Bool :=
  preferredConditions.any (fun c => (condCandidate listings c).isSome)

/-- The marketplaceResults entry produced by the always-successful
searchBeatport. -/
def beatportEntry (artist title : String) : MarketplaceListing :=
  ⟨"beatport",
    some ("https://www.beatport.com/search?q=" ++ encodeURIComponent (artist ++ " " ++ title)),
    none, none, false⟩

/-- The marketplaceResults entry produced by the always-successful
searchBandcamp. -/
def bandcampEntry (artist title : String) : MarketplaceListing :=
  ⟨"bandcamp",
    some ("https://bandcamp.com/search?q=" ++ encodeURIComponent (artist ++ " " ++ title)),
    none, none, false⟩

/-- The marketplaceResults entry produced by the always-successful
searchJuno. -/
def junoEntry (artist title : String) : MarketplaceListing :=
  ⟨"juno",
    some ("https://www.junodownload.com/search/?q[all][]=" ++ encodeURIComponent (artist ++ " " ++ title)),
    none, none, false⟩

/-- A Discogs API whose release search always rejects (a provider that
errors on every attempt, even after retries). -/
def failingDiscogsApi : DiscogsApi :=
  ⟨fun _ _ => .error (), fun _ _ => .error ()⟩

/-- A Discogs API that finds one release and returns the given listings. -/
def listingsDiscogsApi (ls : List DiscogsListing) : DiscogsApi :=
  ⟨fun _ _ => .ok [7], fun _ _ => .ok ls⟩

/-- A Fuse searcher returning no result. -/
def emptyFuse : FuseSearcher :=
  fun _ _ => []

/-- A Fuse searcher returning one hit of score one quarter. -/
def witnessFuse : FuseSearcher :=
  fun _ _ => [⟨⟨"daft punk one more time", "owned1"⟩, some (1 / 4)⟩]

/-- Concrete world for the empty-playlist run: authenticated caller u1,
API key configured, every playlist listing empty. -/
def emptyPlaylistWorld : PPWorld :=
  ⟨some "u1", true, fun _ => [], [], "pldoc", fun _ => "tdoc"⟩

/-- An always-failing operation for the retry-policy witness: attempt k
fails with the message fail-k. -/
def c9FailFn : ℕ → Except String ℕ :=
  fun k => .error ("fail" ++ toString k)

/-- An operation for the retry-policy witness that fails twice and then
succeeds. -/
def c9MixedFn : ℕ → Except String ℕ :=
  fun k => if k < 2 then .error ("fail" ++ toString k) else .ok 42

/-! ## Theorems

First the toolbox about characters and the normalizer, then the claims in
order. -/

theorem char_toNat_ofNat (n : Nat) (h : n.isValidChar) : (Char.ofNat n).toNat = n := by
  simp [Char.ofNat, h, Char.toNat, Char.ofNatAux, UInt32.toNat, BitVec.toNat_ofNatLt]

theorem char_eq_of_toNat_eq {a b : Char} (h : a.toNat = b.toNat) : a = b :=
  Char.eq_of_val_eq (UInt32.ext h)

theorem char_le_toNat {a b : Char} : a ≤ b ↔ a.toNat ≤ b.toNat := by
  rw [Char.le_def]
  constructor
  · intro h
    simpa [UInt32.toNat, BitVec.le_def] using h
  · intro h
    exact UInt32.le_def.mpr (by simpa [UInt32.toNat, BitVec.le_def] using h)

theorem toLower_toNat (c : Char) :
    (c.toLower).toNat = if 65 ≤ c.toNat ∧ c.toNat ≤ 90 then c.toNat + 32 else c.toNat := by
  show (if c.toNat ≥ 65 ∧ c.toNat ≤ 90 then Char.ofNat (c.toNat + 32) else c).toNat = _
  by_cases h : 65 ≤ c.toNat ∧ c.toNat ≤ 90
  · rw [if_pos h, if_pos h]
    exact char_toNat_ofNat _ (Or.inl (by omega))
  · rw [if_neg h, if_neg h]

theorem toLower_idem (c : Char) : (c.toLower).toLower = c.toLower := by
  apply char_eq_of_toNat_eq
  rw [toLower_toNat c.toLower, toLower_toNat c]
  by_cases h : 65 ≤ c.toNat ∧ c.toNat ≤ 90
  · simp only [if_pos h]
    rw [if_neg (by omega)]
  · simp only [if_neg h]

theorem toLower_not_upper (c : Char) : ¬(65 ≤ (c.toLower).toNat ∧ (c.toLower).toNat ≤ 90) := by
  rw [toLower_toNat]
  by_cases h : 65 ≤ c.toNat ∧ c.toNat ≤ 90
  · rw [if_pos h]; omega
  · rw [if_neg h]; omega

theorem cssCharOK_of_keep_toLower (c : Char)
    (hk : keepChar c.toLower = true) (hs : isSpaceJS c.toLower = false) :
    cssCharOK c.toLower = true := by
  have hup := toLower_not_upper c
  revert hk hs hup
  generalize c.toLower = d
  intro hk hs hup
  simp only [keepChar, isWordChar, Bool.or_eq_true, Bool.and_eq_true,
    decide_eq_true_eq, hs, Bool.false_eq_true, or_false] at hk
  simp only [cssCharOK, Bool.or_eq_true, Bool.and_eq_true, decide_eq_true_eq]
  have h65 : ('A' : Char).toNat = 65 := by decide
  have h90 : ('Z' : Char).toNat = 90 := by decide
  rcases hk with ((h | h) | h) | h
  · exact Or.inl (Or.inl (Or.inl ⟨h.1, h.2⟩))
  · exfalso
    rcases h with ⟨h1, h2⟩
    rw [char_le_toNat] at h1 h2
    rw [h65] at h1
    rw [h90] at h2
    exact hup ⟨h1, h2⟩
  · exact Or.inl (Or.inl (Or.inr h))
  · exact Or.inl (Or.inr h)


theorem mem_collapseSpaces {c : Char} :
    ∀ (b : Bool) (l : List Char), c ∈ collapseSpaces b l →
      c = ' ' ∨ (c ∈ l ∧ isSpaceJS c = false) := by
  intro b l
  induction l generalizing b with
  | nil => intro h; simp [collapseSpaces] at h
  | cons a l ih =>
    intro h
    cases hsa : isSpaceJS a with
    | true =>
      cases b with
      | true =>
        simp only [collapseSpaces, hsa, if_true] at h
        rcases ih true h with h2 | h2
        · exact Or.inl h2
        · exact Or.inr ⟨List.mem_cons_of_mem _ h2.1, h2.2⟩
      | false =>
        simp only [collapseSpaces, hsa, if_true] at h
        rcases List.mem_cons.mp h with h1 | h1
        · exact Or.inl h1
        · rcases ih true h1 with h2 | h2
          · exact Or.inl h2
          · exact Or.inr ⟨List.mem_cons_of_mem _ h2.1, h2.2⟩
    | false =>
      simp only [collapseSpaces, hsa] at h
      rcases List.mem_cons.mp h with h1 | h1
      · subst h1; exact Or.inr ⟨List.mem_cons_self .., hsa⟩
      · rcases ih false h1 with h2 | h2
        · exact Or.inl h2
        · exact Or.inr ⟨List.mem_cons_of_mem _ h2.1, h2.2⟩

theorem noDS_cons (c : Char) (l : List Char) :
    noDoubleSpace (c :: l) = true ↔
      ((isSpaceJS c = true → headNotSpace l = true) ∧ noDoubleSpace l = true) := by
  cases l with
  | nil => simp [noDoubleSpace, headNotSpace]
  | cons d ds =>
    show ((!(isSpaceJS c && isSpaceJS d)) && noDoubleSpace (d :: ds)) = true ↔ _
    cases hc : isSpaceJS c <;> cases hd : isSpaceJS d <;>
      simp [headNotSpace, hc, hd]

theorem collapse_headNotSpace (l : List Char) :
    headNotSpace (collapseSpaces true l) = true := by
  induction l with
  | nil => rfl
  | cons a l ih =>
    cases hsa : isSpaceJS a with
    | true => simpa [collapseSpaces, hsa] using ih
    | false => simp [collapseSpaces, hsa, headNotSpace]

theorem collapse_noDS : ∀ (b : Bool) (l : List Char),
    noDoubleSpace (collapseSpaces b l) = true := by
  intro b l
  induction l generalizing b with
  | nil => cases b <;> rfl
  | cons a l ih =>
    cases hsa : isSpaceJS a with
    | true =>
      cases b with
      | true => simpa [collapseSpaces, hsa] using ih true
      | false =>
        have hshape : collapseSpaces false (a :: l) = ' ' :: collapseSpaces true l := by
          simp [collapseSpaces, hsa]
        rw [hshape, noDS_cons]
        exact ⟨fun _ => collapse_headNotSpace l, ih true⟩
    | false =>
      have hshape : collapseSpaces b (a :: l) = a :: collapseSpaces false l := by
        simp [collapseSpaces, hsa]
      rw [hshape, noDS_cons]
      exact ⟨fun h => Bool.noConfusion (hsa.symm.trans h), ih false⟩

theorem mem_jsTrimRight {c : Char} : ∀ l : List Char, c ∈ jsTrimRight l → c ∈ l := by
  intro l
  induction l with
  | nil => intro h; exact h
  | cons a l ih =>
    intro h
    simp only [jsTrimRight] at h
    by_cases hc : (jsTrimRight l).isEmpty && isSpaceJS a
    · rw [if_pos hc] at h; cases h
    · rw [if_neg hc] at h
      rcases List.mem_cons.mp h with h1 | h1
      · subst h1; exact List.mem_cons_self ..
      · exact List.mem_cons_of_mem _ (ih h1)

theorem mem_jsTrimLeft {c : Char} {l : List Char} (h : c ∈ jsTrimLeft l) : c ∈ l :=
  (List.dropWhile_sublist _).subset h

theorem mem_jsTrimList {c : Char} {l : List Char} (h : c ∈ jsTrimList l) : c ∈ l :=
  mem_jsTrimLeft (mem_jsTrimRight _ h)

theorem headNotSpace_jsTrimLeft (l : List Char) : headNotSpace (jsTrimLeft l) = true := by
  induction l with
  | nil => rfl
  | cons a l ih =>
    cases hsa : isSpaceJS a with
    | true => simpa [jsTrimLeft, List.dropWhile_cons, hsa] using ih
    | false => simp [jsTrimLeft, List.dropWhile_cons, hsa, headNotSpace]

theorem noDS_jsTrimLeft {l : List Char} (h : noDoubleSpace l = true) :
    noDoubleSpace (jsTrimLeft l) = true := by
  induction l with
  | nil => exact h
  | cons a l ih =>
    cases hsa : isSpaceJS a with
    | true =>
      simp only [jsTrimLeft, List.dropWhile_cons, hsa, if_true]
      exact ih ((noDS_cons a l).mp h).2
    | false =>
      simpa [jsTrimLeft, List.dropWhile_cons, hsa] using h

theorem jsTrimRight_head (l : List Char) :
    jsTrimRight l = [] ∨ (jsTrimRight l).head? = l.head? := by
  cases l with
  | nil => exact Or.inl rfl
  | cons a l =>
    simp only [jsTrimRight]
    by_cases hc : (jsTrimRight l).isEmpty && isSpaceJS a
    · rw [if_pos hc]; exact Or.inl rfl
    · rw [if_neg hc]; exact Or.inr rfl

theorem headNotSpace_of_same_head {l r : List Char} (h : headNotSpace l = true)
    (hh : r.head? = l.head?) : headNotSpace r = true := by
  cases r with
  | nil => rfl
  | cons a rs =>
    cases l with
    | nil => cases hh
    | cons b ls =>
      simp only [List.head?] at hh
      have : a = b := by injection hh
      subst this
      exact h

theorem noDS_jsTrimRight : ∀ {l : List Char}, noDoubleSpace l = true →
    noDoubleSpace (jsTrimRight l) = true := by
  intro l
  induction l with
  | nil => intro h; exact h
  | cons a l ih =>
    intro h
    simp only [jsTrimRight]
    by_cases hc : (jsTrimRight l).isEmpty && isSpaceJS a
    · rw [if_pos hc]; rfl
    · rw [if_neg hc]
      rw [noDS_cons]
      rcases (noDS_cons a l).mp h with ⟨h1, h2⟩
      refine ⟨?_, ih h2⟩
      intro hsa
      rcases jsTrimRight_head l with he | he
      · rw [he]; rfl
      · exact headNotSpace_of_same_head (h1 hsa) he

theorem lastNotSpace_jsTrimRight : ∀ l : List Char, lastNotSpace (jsTrimRight l) = true := by
  intro l
  induction l with
  | nil => rfl
  | cons a l ih =>
    simp only [jsTrimRight]
    by_cases hc : (jsTrimRight l).isEmpty && isSpaceJS a
    · rw [if_pos hc]; rfl
    · rw [if_neg hc]
      cases he : jsTrimRight l with
      | nil =>
        have hsa : isSpaceJS a = false := by
          rcases Bool.and_eq_false_iff.mp (Bool.eq_false_iff.mpr hc) with h1 | h1
          · rw [he] at h1; cases h1
          · exact h1
        simp [lastNotSpace, hsa]
      | cons b bs =>
        rw [he] at ih
        simpa [lastNotSpace, List.getLast?_cons_cons] using ih

theorem collapse_id : ∀ (b : Bool) (l : List Char),
    (∀ c ∈ l, isSpaceJS c = true → c = ' ') → noDoubleSpace l = true →
    (b = true → headNotSpace l = true) → collapseSpaces b l = l := by
  intro b l
  induction l generalizing b with
  | nil => intro _ _ _; cases b <;> rfl
  | cons a l ih =>
    intro hsp hds hhd
    cases hsa : isSpaceJS a with
    | true =>
      have ha : a = ' ' := hsp a (List.mem_cons_self ..) hsa
      cases b with
      | true =>
        have := hhd rfl
        rw [headNotSpace, hsa] at this
        cases this
      | false =>
        have hshape : collapseSpaces false (a :: l) = ' ' :: collapseSpaces true l := by
          simp [collapseSpaces, hsa]
        rw [hshape, ha]
        have hrec : collapseSpaces true l = l := by
          apply ih true
          · intro c hc hs; exact hsp c (List.mem_cons_of_mem _ hc) hs
          · exact ((noDS_cons a l).mp hds).2
          · intro _; exact ((noDS_cons a l).mp hds).1 hsa
        rw [hrec]
    | false =>
      have hshape : collapseSpaces b (a :: l) = a :: collapseSpaces false l := by
        simp [collapseSpaces, hsa]
      rw [hshape]
      have hrec : collapseSpaces false l = l := by
        apply ih false
        · intro c hc hs; exact hsp c (List.mem_cons_of_mem _ hc) hs
        · exact ((noDS_cons a l).mp hds).2
        · intro h; cases h
      rw [hrec]

theorem jsTrimLeft_id {l : List Char} (h : headNotSpace l = true) : jsTrimLeft l = l := by
  cases l with
  | nil => rfl
  | cons a l =>
    rw [headNotSpace, Bool.not_eq_true'] at h
    simp [jsTrimLeft, List.dropWhile_cons, h]

theorem jsTrimRight_id : ∀ {l : List Char}, lastNotSpace l = true → jsTrimRight l = l := by
  intro l
  induction l with
  | nil => intro _; rfl
  | cons a l ih =>
    intro h
    cases l with
    | nil =>
      have ha : isSpaceJS a = false := by
        rw [lastNotSpace] at h
        simpa using h
      simp [jsTrimRight, ha]
    | cons b bs =>
      have h2 : lastNotSpace (b :: bs) = true := by
        rw [lastNotSpace] at h ⊢
        rwa [List.getLast?_cons_cons] at h
      have hrec := ih h2
      rw [jsTrimRight, hrec]
      simp

theorem map_toLower_id {l : List Char} (h : ∀ c ∈ l, c.toLower = c) :
    l.map Char.toLower = l := by
  induction l with
  | nil => rfl
  | cons a l ih =>
    rw [List.map_cons, h a (List.mem_cons_self ..),
      ih (fun c hc => h c (List.mem_cons_of_mem _ hc))]

theorem mem_cssList {c : Char} {l : List Char} (h : c ∈ cssList l) :
    c = ' ' ∨ (c ∈ (l.map Char.toLower).filter keepChar ∧ isSpaceJS c = false) :=
  mem_collapseSpaces false _ (mem_jsTrimList h)

theorem cssList_keep {c : Char} {l : List Char} (h : c ∈ cssList l) :
    keepChar c = true := by
  rcases mem_cssList h with h1 | h1
  · rw [h1]; decide
  · exact (List.mem_filter.mp h1.1).2

theorem cssList_lower {c : Char} {l : List Char} (h : c ∈ cssList l) :
    c.toLower = c := by
  rcases mem_cssList h with h1 | h1
  · rw [h1]; decide
  · rcases List.mem_map.mp (List.mem_filter.mp h1.1).1 with ⟨d, _, hd⟩
    rw [← hd]
    exact toLower_idem d

theorem cssList_space_is_blank {c : Char} {l : List Char} (h : c ∈ cssList l)
    (hs : isSpaceJS c = true) : c = ' ' := by
  rcases mem_cssList h with h1 | h1
  · exact h1
  · rw [h1.2] at hs; cases hs

theorem cssList_charOK {c : Char} {l : List Char} (h : c ∈ cssList l) :
    cssCharOK c = true := by
  rcases mem_cssList h with h1 | h1
  · rw [h1]; decide
  · rcases List.mem_filter.mp h1.1 with ⟨hm, hk⟩
    rcases List.mem_map.mp hm with ⟨d, _, hd⟩
    subst hd
    exact cssCharOK_of_keep_toLower d hk h1.2

theorem cssList_noDS (l : List Char) : noDoubleSpace (cssList l) = true :=
  noDS_jsTrimRight (noDS_jsTrimLeft (collapse_noDS false _))

theorem cssList_headNotSpace (l : List Char) : headNotSpace (cssList l) = true := by
  rcases jsTrimRight_head (jsTrimLeft (collapseSpaces false ((l.map Char.toLower).filter keepChar))) with h | h
  · rw [cssList, jsTrimList, h]; rfl
  · exact headNotSpace_of_same_head (headNotSpace_jsTrimLeft _) h

theorem cssList_lastNotSpace (l : List Char) : lastNotSpace (cssList l) = true :=
  lastNotSpace_jsTrimRight _

theorem cssList_idem (l : List Char) : cssList (cssList l) = cssList l := by
  have hmap : (cssList l).map Char.toLower = cssList l :=
    map_toLower_id (fun c hc => cssList_lower hc)
  have hfil : (cssList l).filter keepChar = cssList l :=
    List.filter_eq_self.mpr (fun c hc => cssList_keep hc)
  have hcol : collapseSpaces false (cssList l) = cssList l :=
    collapse_id false _ (fun c hc => cssList_space_is_blank hc) (cssList_noDS l)
      (fun h => by cases h)
  have htl : jsTrimLeft (cssList l) = cssList l :=
    jsTrimLeft_id (cssList_headNotSpace l)
  have htr : jsTrimRight (cssList l) = cssList l :=
    jsTrimRight_id (cssList_lastNotSpace l)
  show jsTrimList (collapseSpaces false (((cssList l).map Char.toLower).filter keepChar)) = cssList l
  rw [hmap, hfil, hcol, jsTrimList, htl, htr]

/-- C7: normalization is idempotent: applying createSearchableString twice
equals applying it once, for every input string. -/
theorem c7_normalize_idempotent (s : String) :
    createSearchableString (createSearchableString s) = createSearchableString s :=
  congrArg String.mk (cssList_idem s.data)

/-- C6 counterexample: createSearchableString keeps underscores (the
regex word class includes them), so the output is not limited to letters,
digits and spaces as claimed: the underscore of a_b survives and is outside
the claimed character set. -/
theorem c6_counterexample :
    createSearchableString "a_b" = "a_b" ∧
    '_' ∈ (createSearchableString "a_b").data ∧
    cssCharClaimed '_' = false := by
  refine ⟨by decide, by decide, by decide⟩

/-- C6 amended: for every string, every character of the output of
createSearchableString is a lowercase ASCII letter, a digit, an underscore
or a space, no two adjacent characters are whitespace, and the output
neither starts nor ends with whitespace. -/
theorem c6_normalizer_shape (s : String) :
    (createSearchableString s).data.all cssCharOK = true ∧
    noDoubleSpace (createSearchableString s).data = true ∧
    headNotSpace (createSearchableString s).data = true ∧
    lastNotSpace (createSearchableString s).data = true := by
  refine ⟨?_, cssList_noDS s.data, cssList_headNotSpace s.data, cssList_lastNotSpace s.data⟩
  rw [List.all_eq_true]
  intro c hc
  exact cssList_charOK hc

theorem retryAux_ok {ε α : Type} {fn : ℕ → Except ε α} {bd attempt : ℕ}
    {lastE : Option ε} {rem : ℕ} {v : α} (h : fn attempt = .ok v) :
    retryAux fn bd attempt lastE (rem + 1) = ⟨.ok v, 1, []⟩ := by
  simp [retryAux, h]

theorem retryAux_err {ε α : Type} {fn : ℕ → Except ε α} {bd attempt : ℕ}
    {lastE : Option ε} {rem : ℕ} {e : ε} (h : fn attempt = .error e) (hrem : rem ≠ 0) :
    retryAux fn bd attempt lastE (rem + 1) =
      ⟨(retryAux fn bd (attempt + 1) (some e) rem).result,
       (retryAux fn bd (attempt + 1) (some e) rem).attemptsMade + 1,
       bd * 2 ^ attempt :: (retryAux fn bd (attempt + 1) (some e) rem).delays⟩ := by
  simp [retryAux, h, hrem]

theorem retryAux_err_final {ε α : Type} {fn : ℕ → Except ε α} {bd attempt : ℕ}
    {lastE : Option ε} {e : ε} (h : fn attempt = .error e) :
    retryAux fn bd attempt lastE 1 = ⟨.error (some e), 1, []⟩ := by
  show retryAux fn bd attempt lastE (0 + 1) = _
  simp [retryAux, h]

theorem retryAux_delays {ε α : Type} (fn : ℕ → Except ε α) (bd : ℕ) :
    ∀ (remaining attempt : ℕ) (lastE : Option ε) (i : ℕ),
      i < (retryAux fn bd attempt lastE remaining).delays.length →
      (retryAux fn bd attempt lastE remaining).delays.getD i 0 = bd * 2 ^ (attempt + i) := by
  intro remaining
  induction remaining with
  | zero => intro attempt lastE i hi; simp [retryAux] at hi
  | succ rem ih =>
    intro attempt lastE i hi
    cases hfn : fn attempt with
    | ok v => rw [retryAux_ok hfn] at hi; simp at hi
    | error e =>
      by_cases hrem : rem = 0
      · subst hrem
        rw [retryAux_err_final hfn] at hi
        simp at hi
      · rw [retryAux_err hfn hrem] at hi ⊢
        cases i with
        | zero => simp
        | succ i =>
          simp only [List.length_cons, Nat.add_lt_add_iff_right] at hi
          simp only [List.getD_cons_succ]
          rw [ih (attempt + 1) (some e) i hi]
          ring_nf

theorem retryAux_allFail {ε α : Type} (fn : ℕ → Except ε α) (bd : ℕ) :
    ∀ (remaining attempt : ℕ) (lastE : Option ε), 1 ≤ remaining →
      (∀ k, attempt ≤ k → k < attempt + remaining → ∃ e, fn k = .error e) →
      ∃ e, fn (attempt + remaining - 1) = .error e ∧
        (retryAux fn bd attempt lastE remaining).result = .error (some e) ∧
        (retryAux fn bd attempt lastE remaining).attemptsMade = remaining ∧
        (retryAux fn bd attempt lastE remaining).delays.length = remaining - 1 := by
  intro remaining
  induction remaining with
  | zero => intro attempt lastE h1; omega
  | succ rem ih =>
    intro attempt lastE _ hfail
    rcases hfail attempt (Nat.le_refl _) (by omega) with ⟨e0, he0⟩
    by_cases hrem : rem = 0
    · subst hrem
      refine ⟨e0, by simpa using he0, ?_⟩
      rw [retryAux_err_final he0]
      exact ⟨rfl, rfl, rfl⟩
    · rcases ih (attempt + 1) (some e0) (by omega)
        (fun k hk1 hk2 => hfail k (by omega) (by omega)) with ⟨e, he, hres, hatt, hdel⟩
      refine ⟨e, ?_, ?_, ?_, ?_⟩
      · have hidx : attempt + (rem + 1) - 1 = attempt + 1 + rem - 1 := by omega
        rw [hidx]; exact he
      · rw [retryAux_err he0 hrem]; exact hres
      · rw [retryAux_err he0 hrem]; simp only; omega
      · rw [retryAux_err he0 hrem]; simp only [List.length_cons]; omega

theorem retryAux_success {ε α : Type} (fn : ℕ → Except ε α) (bd : ℕ) :
    ∀ (remaining attempt : ℕ) (lastE : Option ε) (j : ℕ) (v : α),
      attempt ≤ j → j < attempt + remaining → fn j = .ok v →
      (∀ k, attempt ≤ k → k < j → ∃ e, fn k = .error e) →
      (retryAux fn bd attempt lastE remaining).result = .ok v ∧
      (retryAux fn bd attempt lastE remaining).attemptsMade = j - attempt + 1 ∧
      (retryAux fn bd attempt lastE remaining).delays.length = j - attempt := by
  intro remaining
  induction remaining with
  | zero => intro attempt lastE j v h1 h2; omega
  | succ rem ih =>
    intro attempt lastE j v hle hlt hok hfail
    by_cases hj : j = attempt
    · subst hj
      rw [retryAux_ok hok]
      exact ⟨rfl, by simp, by simp⟩
    · rcases hfail attempt (Nat.le_refl _) (by omega) with ⟨e0, he0⟩
      have hrem : rem ≠ 0 := by omega
      rcases ih (attempt + 1) (some e0) j v (by omega) (by omega) hok
        (fun k hk1 hk2 => hfail k (by omega) hk2) with ⟨hres, hatt, hdel⟩
      rw [retryAux_err he0 hrem]
      refine ⟨hres, ?_, ?_⟩
      · simp only; omega
      · simp only [List.length_cons]; omega

/-- C9: the retry policy sleeps before attempt k (k at least 2) exactly
baseDelay times two to the k minus 2 (the delay list entry at index i is
the sleep before attempt i + 2, and there is no sleep before the first
attempt since the delay count stays one below the attempt count); when
every attempt fails it rethrows the last observed error after exactly
maxAttempts attempts; when attempt j + 1 is the first to succeed it
returns that value after exactly j + 1 attempts and j sleeps. -/
theorem c9_retry_policy {ε α : Type} (fn : ℕ → Except ε α) (maxRetries baseDelay : ℕ)
    (hmax : 1 ≤ maxRetries) :
    (∀ i, i < (retryWithBackoff fn maxRetries baseDelay).delays.length →
      (retryWithBackoff fn maxRetries baseDelay).delays.getD i 0 = baseDelay * 2 ^ i) ∧
    ((∀ k, k < maxRetries → ∃ e, fn k = .error e) →
      ∃ e, fn (maxRetries - 1) = Except.error e ∧
        (retryWithBackoff fn maxRetries baseDelay).result = .error (some e) ∧
        (retryWithBackoff fn maxRetries baseDelay).attemptsMade = maxRetries ∧
        (retryWithBackoff fn maxRetries baseDelay).delays.length = maxRetries - 1) ∧
    (∀ j v, j < maxRetries → fn j = .ok v → (∀ k, k < j → ∃ e, fn k = .error e) →
      (retryWithBackoff fn maxRetries baseDelay).result = .ok v ∧
      (retryWithBackoff fn maxRetries baseDelay).attemptsMade = j + 1 ∧
      (retryWithBackoff fn maxRetries baseDelay).delays.length = j) := by
  refine ⟨?_, ?_, ?_⟩
  · intro i hi
    have := retryAux_delays fn baseDelay maxRetries 0 none i hi
    simpa using this
  · intro hfail
    have := retryAux_allFail fn baseDelay maxRetries 0 none hmax
      (fun k hk1 hk2 => hfail k (by omega))
    simpa using this
  · intro j v hj hok hfail
    have := retryAux_success fn baseDelay maxRetries 0 none j v (by omega) (by omega) hok
      (fun k hk1 hk2 => hfail k hk2)
    simpa using this

/-- C9 witness: at the concrete always-failing operation with three
attempts and base delay 1000, and at the operation succeeding on its third
attempt, the retry policy behaves as the theorem states. -/
theorem c9_retry_policy_witness :
    (1 ≤ 3) ∧
    ((retryWithBackoff c9FailFn 3 1000).delays.getD 0 0 = 1000 * 2 ^ 0 ∧
     (retryWithBackoff c9FailFn 3 1000).delays.getD 1 0 = 1000 * 2 ^ 1) ∧
    (∃ e, c9FailFn 2 = Except.error e ∧
      (retryWithBackoff c9FailFn 3 1000).result = .error (some e) ∧
      (retryWithBackoff c9FailFn 3 1000).attemptsMade = 3 ∧
      (retryWithBackoff c9FailFn 3 1000).delays.length = 2) ∧
    ((retryWithBackoff c9MixedFn 3 1000).result = .ok 42 ∧
     (retryWithBackoff c9MixedFn 3 1000).attemptsMade = 3 ∧
     (retryWithBackoff c9MixedFn 3 1000).delays.length = 2) := by
  have h1 := c9_retry_policy c9FailFn 3 1000 (by decide)
  have h2 := c9_retry_policy c9MixedFn 3 1000 (by decide)
  refine ⟨by decide, ⟨?_, ?_⟩, ?_, ?_⟩
  · exact h1.1 0 (by decide)
  · exact h1.1 1 (by decide)
  · exact h1.2.1 (fun k hk => ⟨"fail" ++ toString k, rfl⟩)
  · exact h2.2.2 2 42 (by decide) rfl
      (fun k hk => ⟨"fail" ++ toString k, by
        have : k < 2 := hk
        rw [c9MixedFn]
        simp [this]⟩)

/-- C8: for every Fuse searcher obeying the configured threshold contract
(every returned score lies between 0 and the laxest variant's 0.55 =
11/20; the 0.3 variant satisfies this a fortiori), every artist and title
(including null and empty, which yield the immediate no-match) and every
owned index, the match id is null exactly when the confidence is 0. -/
theorem c8_matchid_confidence_iff (fuseSearch : FuseSearcher)
    (artist title : Option String) (tracks : List UserTrack)
    (hthr : ∀ q r, r ∈ fuseSearch tracks q →
      ∀ s, r.score = some s → 0 ≤ s ∧ s ≤ 11 / 20) :
    ((fuzzyMatchTrack fuseSearch artist title tracks).matchId = none ↔
      (fuzzyMatchTrack fuseSearch artist title tracks).confidence = 0) := by
  by_cases hf : (jsFalsyStr artist || jsFalsyStr title) = true
  · have hval : fuzzyMatchTrack fuseSearch artist title tracks = ⟨none, 0⟩ := by
      simp [fuzzyMatchTrack, hf]
    rw [hval]
    simp
  · cases hres : fuseSearch tracks
        (createSearchableString (artist.getD "" ++ " " ++ title.getD "")) with
    | nil =>
      have hval : fuzzyMatchTrack fuseSearch artist title tracks = ⟨none, 0⟩ := by
        simp [fuzzyMatchTrack, hf, hres]
      rw [hval]
      simp
    | cons r rs =>
      cases hsc : r.score with
      | none =>
        have hval : fuzzyMatchTrack fuseSearch artist title tracks = ⟨none, 0⟩ := by
          simp [fuzzyMatchTrack, hf, hres, hsc]
        rw [hval]
        simp
      | some s =>
        have hval : fuzzyMatchTrack fuseSearch artist title tracks =
            ⟨some r.item.id, max 0 (jsRound ((1 - s) * 100))⟩ := by
          simp [fuzzyMatchTrack, hf, hres, hsc]
        rw [hval]
        have hs := hthr _ r (hres ▸ List.mem_cons_self ..) s hsc
        have h45 : (45 : ℤ) ≤ jsRound ((1 - s) * 100) := by
          rw [jsRound, Int.le_floor]
          push_cast
          nlinarith [hs.2]
        have hge : (45 : ℤ) ≤ max 0 (jsRound ((1 - s) * 100)) :=
          le_trans h45 (le_max_right _ _)
        constructor
        · intro h; cases h
        · intro h
          exfalso
          simp only at h
          omega

/-- C8 witness: at the concrete one-hit searcher of score one quarter the
threshold hypothesis holds and the iff is established by the theorem. -/
theorem c8_matchid_confidence_iff_witness :
    (∀ q r, r ∈ witnessFuse [] q → ∀ s, r.score = some s → 0 ≤ s ∧ s ≤ 11 / 20) ∧
    ((fuzzyMatchTrack witnessFuse (some "Daft Punk") (some "One More Time") []).matchId = none ↔
      (fuzzyMatchTrack witnessFuse (some "Daft Punk") (some "One More Time") []).confidence = 0) := by
  have hthr : ∀ q r, r ∈ witnessFuse [] q → ∀ s, r.score = some s → 0 ≤ s ∧ s ≤ 11 / 20 := by
    intro q r hr s hs
    simp only [witnessFuse, List.mem_singleton] at hr
    subst hr
    simp only [Option.some.injEq] at hs
    subst hs
    constructor <;> norm_num
  exact ⟨hthr, c8_matchid_confidence_iff witnessFuse _ _ [] hthr⟩

theorem p1CloseBracket_last {l : List Char} (h : p1CloseBracket l = true) :
    l.getLast? = some ']' := by
  induction l with
  | nil => cases h
  | cons c cs ih =>
    rw [p1CloseBracket, Bool.or_eq_true] at h
    rcases h with h | h
    · rw [Bool.and_eq_true] at h
      have hc : c = ']' := by simpa using h.1
      have hcs : cs = [] := by simpa using h.2
      subst hc; subst hcs; rfl
    · rw [Bool.and_eq_true] at h
      have := ih h.2
      cases cs with
      | nil => cases h.2
      | cons b bs => rw [List.getLast?_cons_cons]; exact this

theorem getLast?_dropWhile_of_ne_nil {p : Char → Bool} {l : List Char}
    (h : l.dropWhile p ≠ []) : (l.dropWhile p).getLast? = l.getLast? := by
  induction l with
  | nil => simp at h
  | cons c cs ih =>
    rw [List.dropWhile_cons]
    by_cases hc : p c = true
    · rw [List.dropWhile_cons, if_pos hc] at h
      rw [if_pos hc, ih h]
      cases cs with
      | nil => simp [List.dropWhile] at h
      | cons b bs => rw [List.getLast?_cons_cons]
    · rw [if_neg hc]

theorem p1BracketEnd_false {rest : List Char} (h : rest.getLast? = some ')') :
    p1BracketEnd rest = false := by
  cases hd : rest.dropWhile isSpaceJS with
  | nil => rw [p1BracketEnd, hd]
  | cons c cs =>
    have hne : rest.dropWhile isSpaceJS ≠ [] := by rw [hd]; simp
    have hlast : (c :: cs).getLast? = some ')' := by
      rw [← hd, getLast?_dropWhile_of_ne_nil hne]; exact h
    by_cases hc : c = '['
    · subst hc
      have hred : p1BracketEnd rest = p1CloseBracket cs := by
        rw [p1BracketEnd, hd]
        rfl
      rw [hred]
      cases hb : p1CloseBracket cs with
      | false => rfl
      | true =>
        exfalso
        have hl := p1CloseBracket_last hb
        cases cs with
        | nil => cases hb
        | cons b bs =>
          rw [List.getLast?_cons_cons, hl] at hlast
          cases hlast
    · rw [p1BracketEnd, hd]
      split
      · next cs3 heq =>
        injection heq with h1 h2
        exact absurd h1 hc
      · rfl

theorem p1End_none {g1 g2 rest : List Char} (hne : rest ≠ [])
    (h : rest.getLast? = some ')') : p1End g1 g2 rest = none := by
  rw [p1End, p1BracketEnd_false h, if_neg (by simp)]
  rw [if_neg]
  simpa using hne

theorem p1G2_none {g1 : List Char} : ∀ (acc rest : List Char), '(' ∈ rest →
    rest.getLast? = some ')' → p1G2 g1 acc rest = none := by
  intro acc rest
  induction rest generalizing acc with
  | nil => intro h; cases h
  | cons c cs ih =>
    intro hmem hlast
    by_cases hc : (c = '[' || c = '(' || c = '\n') = true
    · rw [p1G2, if_pos hc]
    · rw [p1G2, if_neg hc]
      have hpar : ¬ c = '(' := by
        intro h
        apply hc
        rw [h]
        simp
      have hcs : '(' ∈ cs := by
        rcases List.mem_cons.mp hmem with h | h
        · exact absurd h.symm hpar
        · exact h
      have hne : cs ≠ [] := by
        intro h; rw [h] at hcs; cases hcs
      have hlcs : cs.getLast? = some ')' := by
        cases cs with
        | nil => exact absurd rfl hne
        | cons b bs => rw [← List.getLast?_cons_cons (a := c)]; exact hlast
      rw [p1End_none hne hlcs, ih (acc ++ [c]) hcs hlcs]
      rfl

theorem p1SpacesG2_none {g1 : List Char} : ∀ (rest : List Char), '(' ∈ rest →
    rest.getLast? = some ')' → p1SpacesG2 g1 rest = none := by
  intro rest
  induction rest with
  | nil => intro h; cases h
  | cons c cs ih =>
    intro hmem hlast
    have hpar : isSpaceJS '(' = false := by decide
    by_cases hc : isSpaceJS c = true
    · have hcs : '(' ∈ cs := by
        rcases List.mem_cons.mp hmem with h | h
        · rw [← h] at hc; rw [hc] at hpar; cases hpar
        · exact h
      have hne : cs ≠ [] := by intro h; rw [h] at hcs; cases hcs
      have hlcs : cs.getLast? = some ')' := by
        cases cs with
        | nil => exact absurd rfl hne
        | cons b bs => rw [← List.getLast?_cons_cons (a := c)]; exact hlast
      rw [p1SpacesG2, if_pos hc, ih hcs hlcs,
        p1G2_none [] (c :: cs) hmem hlast]
      rfl
    · rw [p1SpacesG2, if_neg hc, p1G2_none [] (c :: cs) hmem hlast]

theorem p1AfterG1_none {g1 : List Char} : ∀ (v w : List Char), '-' ∉ v →
    '(' ∈ w → w.getLast? = some ')' →
    p1AfterG1 g1 (v ++ '-' :: w) = none := by
  intro v
  induction v with
  | nil =>
    intro w _ hw hlw
    rw [p1AfterG1]
    have hsp : isSpaceJS '-' = false := by decide
    have : List.dropWhile isSpaceJS ([] ++ '-' :: w) = '-' :: w := by
      simp [List.dropWhile_cons, hsp]
    rw [this]
    exact p1SpacesG2_none w hw hlw
  | cons c v ih =>
    intro w hv hw hlw
    have hcv : c ≠ '-' := by
      intro h; exact hv (h ▸ List.mem_cons_self ..)
    have hv' : '-' ∉ v := fun h => hv (List.mem_cons_of_mem _ h)
    by_cases hc : isSpaceJS c = true
    · have : p1AfterG1 g1 ((c :: v) ++ '-' :: w) = p1AfterG1 g1 (v ++ '-' :: w) := by
        rw [p1AfterG1, p1AfterG1, List.cons_append, List.dropWhile_cons, if_pos hc]
      rw [this]
      exact ih w hv' hw hlw
    · rw [p1AfterG1, List.cons_append, List.dropWhile_cons, if_neg hc]
      split
      · next cs3 heq =>
        injection heq with h1 h2
        exact absurd h1 hcv
      · rfl

theorem p1TryFrom_none : ∀ (v g1 w : List Char), '-' ∉ v → '(' ∈ w →
    w.getLast? = some ')' → p1TryFrom g1 (v ++ '-' :: w) = none := by
  intro v
  induction v with
  | nil =>
    intro g1 w _ hw hlw
    show oor (p1AfterG1 g1 ('-' :: w)) _ = none
    have h0 : p1AfterG1 g1 ('-' :: w) = none := by
      have := @p1AfterG1_none g1 [] w (by simp) hw hlw
      simpa using this
    simp [oor, h0]
  | cons c v ih =>
    intro g1 w hv hw hlw
    have hcv : c ≠ '-' := by
      intro h; exact hv (h ▸ List.mem_cons_self ..)
    have hv' : '-' ∉ v := fun h => hv (List.mem_cons_of_mem _ h)
    show oor (p1AfterG1 g1 ((c :: v) ++ '-' :: w)) _ = none
    rw [p1AfterG1_none (c :: v) w hv hw hlw]
    simp only [oor, if_neg hcv]
    exact ih (g1 ++ [c]) w hv' hw hlw

theorem p1Match_none {v w : List Char} (hv : v ≠ []) (hvh : '-' ∉ v)
    (hw : '(' ∈ w) (hlw : w.getLast? = some ')') :
    p1Match (v ++ '-' :: w) = none := by
  cases v with
  | nil => exact absurd rfl hv
  | cons c v =>
    have hcv : c ≠ '-' := by
      intro h; exact hvh (h ▸ List.mem_cons_self ..)
    rw [List.cons_append, p1Match, if_neg hcv]
    exact p1TryFrom_none v [c] w (fun h => hvh (List.mem_cons_of_mem _ h)) hw hlw

theorem p2AfterG2_remix (g1 g2 : List Char) :
    p2AfterG2 g1 g2 ['r', 'e', 'm', 'i', 'x', ')'] = some (g1, g2, none) := rfl

theorem p2G2_close_none (g1 acc : List Char) :
    p2G2 g1 acc [')'] = none := by
  rw [p2G2]
  rw [if_pos rfl]
  by_cases h : acc.isEmpty = true
  · rw [if_pos h]
  · rw [if_neg h]
    rfl

theorem p2G2_x_none (g1 acc : List Char) :
    p2G2 g1 acc ['x', ')'] = none := by
  rw [p2G2, if_neg (by decide)]
  rw [p2G2_close_none g1 (acc ++ ['x'])]
  by_cases h : acc.isEmpty = true
  · rw [if_pos h]; rfl
  · rw [if_neg h]; rfl

theorem p2G2_ix_none (g1 acc : List Char) :
    p2G2 g1 acc ['i', 'x', ')'] = none := by
  rw [p2G2, if_neg (by decide), p2G2_x_none g1 (acc ++ ['i'])]
  by_cases h : acc.isEmpty = true
  · rw [if_pos h]; rfl
  · rw [if_neg h]; rfl

theorem p2G2_mix_none (g1 acc : List Char) :
    p2G2 g1 acc ['m', 'i', 'x', ')'] = none := by
  rw [p2G2, if_neg (by decide), p2G2_ix_none g1 (acc ++ ['m'])]
  by_cases h : acc.isEmpty = true
  · rw [if_pos h]; rfl
  · rw [if_neg h]; rfl

theorem p2G2_emix_none (g1 acc : List Char) :
    p2G2 g1 acc ['e', 'm', 'i', 'x', ')'] = none := by
  rw [p2G2, if_neg (by decide), p2G2_mix_none g1 (acc ++ ['e'])]
  by_cases h : acc.isEmpty = true
  · rw [if_pos h]; rfl
  · rw [if_neg h]; rfl

theorem p2G2_remix (g1 acc : List Char) (hne : acc ≠ []) :
    p2G2 g1 acc ['r', 'e', 'm', 'i', 'x', ')'] = some (g1, acc, none) := by
  have hacc : acc.isEmpty = false := by
    cases acc with
    | nil => exact absurd rfl hne
    | cons a as => rfl
  rw [p2G2, if_neg (by decide), p2G2_emix_none g1 (acc ++ ['r']), hacc]
  rw [if_neg (by simp)]
  rw [p2AfterG2_remix]
  rfl

theorem p2G2_capture (g1 : List Char) :
    ∀ (x acc : List Char), (∀ c ∈ x, c1RemixOK c = true) →
      p2G2 g1 acc (x ++ ' ' :: ['r', 'e', 'm', 'i', 'x', ')']) =
        some (g1, acc ++ x ++ [' '], none) := by
  intro x
  induction x with
  | nil =>
    intro acc _
    show p2G2 g1 acc (' ' :: ['r', 'e', 'm', 'i', 'x', ')']) = _
    rw [p2G2, if_neg (by decide)]
    rw [p2G2_remix g1 (acc ++ [' ']) (by simp)]
    simp [oor]
  | cons c x ih =>
    intro acc hx
    have hc := hx c (List.mem_cons_self ..)
    have hcp : ¬ c = ')' := by
      intro h
      rw [c1RemixOK, h] at hc
      simp at hc
    show p2G2 g1 acc (c :: (x ++ ' ' :: ['r', 'e', 'm', 'i', 'x', ')'])) = _
    rw [p2G2, if_neg hcp]
    rw [ih (acc ++ [c]) (fun d hd => hx d (List.mem_cons_of_mem _ hd))]
    simp [oor]

theorem jsTrimRight_eq_nil_iff {l : List Char} :
    jsTrimRight l = [] ↔ ∀ c ∈ l, isSpaceJS c = true := by
  induction l with
  | nil => simp [jsTrimRight]
  | cons c cs ih =>
    rw [jsTrimRight]
    constructor
    · intro h
      by_cases hcond : ((jsTrimRight cs).isEmpty && isSpaceJS c) = true
      · rw [Bool.and_eq_true] at hcond
        have hnil : jsTrimRight cs = [] := by
          cases he : jsTrimRight cs with
          | nil => rfl
          | cons b bs => rw [he] at hcond; cases hcond.1
        intro d hd
        rcases List.mem_cons.mp hd with h1 | h1
        · rw [h1]; exact hcond.2
        · exact ih.mp hnil d h1
      · rw [if_neg hcond] at h
        cases h
    · intro hall
      have hnil : jsTrimRight cs = [] :=
        ih.mpr (fun d hd => hall d (List.mem_cons_of_mem _ hd))
      rw [if_pos]
      rw [Bool.and_eq_true, hnil]
      exact ⟨rfl, hall c (List.mem_cons_self ..)⟩

theorem jsTrimRight_cons_of_not_all_space {c : Char} {v : List Char}
    (h : ¬ ∀ d ∈ c :: v, isSpaceJS d = true) :
    jsTrimRight (c :: v) = c :: jsTrimRight v := by
  rw [jsTrimRight]
  rw [if_neg]
  intro hcond
  rw [Bool.and_eq_true] at hcond
  apply h
  intro d hd
  have hnil : jsTrimRight v = [] := by
    cases he : jsTrimRight v with
    | nil => rfl
    | cons b bs => rw [he] at hcond; cases hcond.1
  rcases List.mem_cons.mp hd with h1 | h1
  · rw [h1]; exact hcond.2
  · exact jsTrimRight_eq_nil_iff.mp hnil d h1

theorem dropWhile_append_all_space {v r : List Char} (hv : ∀ c ∈ v, isSpaceJS c = true) :
    List.dropWhile isSpaceJS (v ++ r) = List.dropWhile isSpaceJS r := by
  induction v with
  | nil => rfl
  | cons c v ih =>
    rw [List.cons_append, List.dropWhile_cons, if_pos (hv c (List.mem_cons_self ..))]
    exact ih (fun d hd => hv d (List.mem_cons_of_mem _ hd))

theorem p2AfterG1_all_space {g1 : List Char} {v : List Char} (D : List Char)
    (hv : ∀ c ∈ v, isSpaceJS c = true) :
    p2AfterG1 g1 (v ++ '(' :: D) = p2G2 g1 [] D := by
  rw [p2AfterG1, dropWhile_append_all_space hv]
  rfl

theorem p2AfterG1_none {g1 : List Char} : ∀ (v : List Char) (D : List Char),
    ¬ (∀ c ∈ v, isSpaceJS c = true) → (∀ c ∈ v, ¬ c = '(') →
    p2AfterG1 g1 (v ++ '(' :: D) = none := by
  intro v
  induction v with
  | nil => intro D h _; exact absurd (by intro c hc; cases hc) h
  | cons c v ih =>
    intro D hns hpar
    by_cases hc : isSpaceJS c = true
    · have : p2AfterG1 g1 ((c :: v) ++ '(' :: D) = p2AfterG1 g1 (v ++ '(' :: D) := by
        rw [p2AfterG1, p2AfterG1, List.cons_append, List.dropWhile_cons, if_pos hc]
      rw [this]
      apply ih D
      · intro hall
        apply hns
        intro d hd
        rcases List.mem_cons.mp hd with h | h
        · rw [h]; exact hc
        · exact hall d h
      · intro d hd; exact hpar d (List.mem_cons_of_mem _ hd)
    · rw [p2AfterG1, List.cons_append, List.dropWhile_cons, if_neg hc]
      split
      · next cs3 heq =>
        injection heq with h1 h2
        exact absurd h1 (hpar c (List.mem_cons_self ..))
      · rfl

theorem p2TryFrom_main {x : List Char} (hx : ∀ c ∈ x, c1RemixOK c = true) :
    ∀ (v g1 : List Char), (∀ c ∈ v, ¬ c = '(' ∧ lineTermChar c = false) →
      p2TryFrom g1 (v ++ '(' :: (x ++ ' ' :: ['r', 'e', 'm', 'i', 'x', ')'])) =
        some (g1 ++ jsTrimRight v, x ++ [' '], none) := by
  intro v
  induction v with
  | nil =>
    intro g1 _
    show oor (p2AfterG1 g1 ('(' :: _)) _ = _
    have h0 := @p2AfterG1_all_space g1 []
      (x ++ ' ' :: ['r', 'e', 'm', 'i', 'x', ')']) (by intro c hc; cases hc)
    simp only [List.nil_append] at h0
    rw [h0, p2G2_capture g1 x [] hx]
    simp [oor, jsTrimRight]
  | cons c v ih =>
    intro g1 hv
    have hc := hv c (List.mem_cons_self ..)
    have hv' : ∀ d ∈ v, ¬ d = '(' ∧ lineTermChar d = false :=
      fun d hd => hv d (List.mem_cons_of_mem _ hd)
    by_cases hall : ∀ d ∈ c :: v, isSpaceJS d = true
    · -- all-space prefix: the continuation succeeds at once with the current g1
      show oor (p2AfterG1 g1 ((c :: v) ++ '(' :: _)) _ = _
      rw [p2AfterG1_all_space _ hall, p2G2_capture g1 x [] hx]
      have htr : jsTrimRight (c :: v) = [] := jsTrimRight_eq_nil_iff.mpr hall
      rw [htr]
      simp [oor]
    · show oor (p2AfterG1 g1 ((c :: v) ++ '(' :: _)) _ = _
      rw [p2AfterG1_none (c :: v) _ hall (fun d hd => (hv d hd).1)]
      simp only [oor]
      rw [if_neg (by rw [hc.2]; intro h; cases h)]
      have htr : jsTrimRight (c :: v) = c :: jsTrimRight v :=
        jsTrimRight_cons_of_not_all_space hall
      rw [htr]
      have := ih (g1 ++ [c]) hv'
      simpa [List.append_assoc] using this

theorem p2Match_main {pre x : List Char}
    (hx : ∀ c ∈ x, c1RemixOK c = true)
    (hpre : ∀ c ∈ pre, ¬ c = '(' ∧ lineTermChar c = false)
    (hns : ¬ ∀ d ∈ pre, isSpaceJS d = true) :
    p2Match (pre ++ '(' :: (x ++ ' ' :: ['r', 'e', 'm', 'i', 'x', ')'])) =
      some (jsTrimRight pre, x ++ [' '], none) := by
  cases pre with
  | nil => exact absurd (by intro d hd; cases hd) hns
  | cons c v =>
    have hc := hpre c (List.mem_cons_self ..)
    rw [List.cons_append, p2Match, if_neg (by rw [hc.2]; intro h; cases h)]
    rw [p2TryFrom_main hx v [c] (fun d hd => hpre d (List.mem_cons_of_mem _ hd))]
    rw [jsTrimRight_cons_of_not_all_space hns]
    rfl

theorem jsTrimLeft_all_space {l : List Char} (h : ∀ c ∈ l, isSpaceJS c = true) :
    jsTrimLeft l = [] := by
  have := dropWhile_append_all_space (r := []) h
  simpa [jsTrimLeft] using this

theorem trim_comm : ∀ l : List Char, jsTrimLeft (jsTrimRight l) = jsTrimRight (jsTrimLeft l) := by
  intro l
  induction l with
  | nil => rfl
  | cons c cs ih =>
    by_cases hc : isSpaceJS c = true
    · by_cases hnil : jsTrimRight cs = []
      · have hall : ∀ d ∈ cs, isSpaceJS d = true := jsTrimRight_eq_nil_iff.mp hnil
        have h1 : jsTrimRight (c :: cs) = [] := by
          apply jsTrimRight_eq_nil_iff.mpr
          intro d hd
          rcases List.mem_cons.mp hd with h | h
          · rw [h]; exact hc
          · exact hall d h
        rw [h1]
        have h2 : jsTrimLeft (c :: cs) = [] := by
          apply jsTrimLeft_all_space
          intro d hd
          rcases List.mem_cons.mp hd with h | h
          · rw [h]; exact hc
          · exact hall d h
        rw [h2]
        rfl
      · have hns : ¬ ∀ d ∈ c :: cs, isSpaceJS d = true := by
          intro hall
          exact hnil (jsTrimRight_eq_nil_iff.mpr
            (fun d hd => hall d (List.mem_cons_of_mem _ hd)))
        rw [jsTrimRight_cons_of_not_all_space hns]
        have h1 : jsTrimLeft (c :: jsTrimRight cs) = jsTrimLeft (jsTrimRight cs) := by
          rw [jsTrimLeft, List.dropWhile_cons, if_pos hc]
          rfl
        have h2 : jsTrimLeft (c :: cs) = jsTrimLeft cs := by
          rw [jsTrimLeft, List.dropWhile_cons, if_pos hc]
          rfl
        rw [h1, h2, ih]
    · have hns : ¬ ∀ d ∈ c :: cs, isSpaceJS d = true := by
        intro hall
        rw [hall c (List.mem_cons_self ..)] at hc
        exact hc rfl
      rw [jsTrimRight_cons_of_not_all_space hns]
      have hcf : isSpaceJS c = false := by
        cases h : isSpaceJS c with
        | false => rfl
        | true => exact absurd h hc
      have h1 : jsTrimLeft (c :: jsTrimRight cs) = c :: jsTrimRight cs := by
        rw [jsTrimLeft, List.dropWhile_cons, hcf]
        rfl
      have h2 : jsTrimLeft (c :: cs) = c :: cs := by
        rw [jsTrimLeft, List.dropWhile_cons, hcf]
        rfl
      rw [h1, h2]
      exact (jsTrimRight_cons_of_not_all_space hns).symm

theorem jsTrimRight_idem (l : List Char) :
    jsTrimRight (jsTrimRight l) = jsTrimRight l :=
  jsTrimRight_id (lastNotSpace_jsTrimRight l)

theorem jsTrimList_jsTrimRight (l : List Char) :
    jsTrimList (jsTrimRight l) = jsTrimList l := by
  rw [jsTrimList, trim_comm, jsTrimRight_idem, jsTrimList]

theorem jsTrimRight_append_space {l : List Char} {b : Char} (hb : isSpaceJS b = true) :
    jsTrimRight (l ++ [b]) = jsTrimRight l := by
  induction l with
  | nil => simp [jsTrimRight, hb]
  | cons c cs ih =>
    rw [List.cons_append, jsTrimRight, jsTrimRight]
    rw [ih]

theorem mem_jsTrimRight_of_nonspace {c : Char} : ∀ {l : List Char}, c ∈ l →
    isSpaceJS c = false → c ∈ jsTrimRight l := by
  intro l
  induction l with
  | nil => intro h; cases h
  | cons a l ih =>
    intro hm hc
    rw [jsTrimRight]
    rcases List.mem_cons.mp hm with h | h
    · subst h
      rw [if_neg (by rw [hc]; simp)]
      exact List.mem_cons_self ..
    · have hin := ih h hc
      have hne : ¬ ((jsTrimRight l).isEmpty && isSpaceJS a) = true := by
        intro hcond
        rw [Bool.and_eq_true] at hcond
        cases he : jsTrimRight l with
        | nil => rw [he] at hin; cases hin
        | cons b bs => rw [he] at hcond; cases hcond.1
      rw [if_neg hne]
      exact List.mem_cons_of_mem _ hin

theorem mem_jsTrimLeft_of_nonspace {c : Char} : ∀ {l : List Char}, c ∈ l →
    isSpaceJS c = false → c ∈ jsTrimLeft l := by
  intro l
  induction l with
  | nil => intro h; cases h
  | cons a l ih =>
    intro hm hc
    rw [jsTrimLeft, List.dropWhile_cons]
    rcases List.mem_cons.mp hm with h | h
    · subst h
      rw [if_neg (by rw [hc]; simp)]
      exact List.mem_cons_self ..
    · by_cases ha : isSpaceJS a = true
      · rw [if_pos ha]
        exact ih h hc
      · rw [if_neg ha]
        exact List.mem_cons_of_mem _ h

theorem mem_jsTrimList_of_nonspace {c : Char} {l : List Char} (hm : c ∈ l)
    (hc : isSpaceJS c = false) : c ∈ jsTrimList l :=
  mem_jsTrimRight_of_nonspace (mem_jsTrimLeft_of_nonspace hm hc) hc

theorem mkStr_isEmpty_false {l : List Char} (h : l ≠ []) :
    (⟨l⟩ : String).isEmpty = false := by
  cases he : (⟨l⟩ : String).isEmpty with
  | false => rfl
  | true =>
    exfalso
    have := (String.isEmpty_iff _).mp he
    have hd : l = [] := congrArg String.data this
    exact h hd

theorem jsTrimList_append_space {l : List Char} {b : Char} (hb : isSpaceJS b = true) :
    jsTrimList (l ++ [b]) = jsTrimList l := by
  rw [jsTrimList, ← trim_comm, jsTrimRight_append_space hb, trim_comm, jsTrimList]

theorem jsTrimList_id_of_solid {l : List Char} (h : ∀ c ∈ l, isSpaceJS c = false) :
    jsTrimList l = l := by
  have hhead : headNotSpace l = true := by
    cases l with
    | nil => rfl
    | cons c cs =>
      rw [headNotSpace, h c (List.mem_cons_self ..)]
      rfl
  have hlast : lastNotSpace l = true := by
    cases hg : l.getLast? with
    | none => rw [lastNotSpace, hg]
    | some d =>
      rw [lastNotSpace, hg]
      show (!isSpaceJS d) = true
      rw [h d (List.mem_of_mem_getLast? hg)]
      rfl
  rw [jsTrimList, jsTrimLeft_id hhead, jsTrimRight_id hlast]

/-- C1 amended, core list computation: the pattern cascade on a title of the
shape ARTIST - TITLE (X remix) stops at pattern 2, whose captures are the
whole text before the parenthetical (group 1, without its trailing
whitespace run) and X plus the space before the remix keyword (group 2),
with the optional by-artist group unmatched. -/
theorem c1_cascade (a t x : List Char)
    (ha : ∀ c ∈ a, c1ArtistOK c = true)
    (ht : ∀ c ∈ t, c1TitleOK c = true)
    (hx : ∀ c ∈ x, c1RemixOK c = true) :
    cascadeState (a ++ ' ' :: '-' :: ' ' :: t ++ ' ' :: '(' :: (x ++ ' ' :: ['r', 'e', 'm', 'i', 'x', ')'])) =
      (none, some ⟨jsTrimList (a ++ ' ' :: '-' :: ' ' :: t)⟩, some ⟨jsTrimList x⟩) := by
  have hsplit1 : a ++ ' ' :: '-' :: ' ' :: t ++ ' ' :: '(' :: (x ++ ' ' :: ['r', 'e', 'm', 'i', 'x', ')']) =
      (a ++ [' ']) ++ '-' :: (' ' :: t ++ ' ' :: '(' :: (x ++ ' ' :: ['r', 'e', 'm', 'i', 'x', ')'])) := by
    simp
  have hsplit2 : a ++ ' ' :: '-' :: ' ' :: t ++ ' ' :: '(' :: (x ++ ' ' :: ['r', 'e', 'm', 'i', 'x', ')']) =
      (a ++ ' ' :: '-' :: ' ' :: t ++ [' ']) ++ '(' :: (x ++ ' ' :: ['r', 'e', 'm', 'i', 'x', ')']) := by
    simp
  have hwend : (' ' :: t ++ ' ' :: '(' :: (x ++ ' ' :: ['r', 'e', 'm', 'i', 'x', ')'])) =
      (' ' :: t ++ ' ' :: '(' :: (x ++ [' ', 'r', 'e', 'm', 'i', 'x'])) ++ [')'] := by
    simp
  have hp1 : p1Match (a ++ ' ' :: '-' :: ' ' :: t ++ ' ' :: '(' :: (x ++ ' ' :: ['r', 'e', 'm', 'i', 'x', ')'])) = none := by
    rw [hsplit1]
    apply p1Match_none
    · simp
    · intro hm
      rcases List.mem_append.mp hm with h | h
      · have := ha _ h
        rw [c1ArtistOK] at this
        simp at this
      · simp at h
    · simp
    · rw [hwend, List.getLast?_concat]
  have hpre : ∀ c ∈ a ++ ' ' :: '-' :: ' ' :: t ++ [' '], ¬ c = '(' ∧ lineTermChar c = false := by
    intro c hc
    rcases List.mem_append.mp hc with h | h
    · rcases List.mem_append.mp h with h2 | h2
      · have := ha _ h2
        rw [c1ArtistOK] at this
        simp only [Bool.and_eq_true, Bool.not_eq_true'] at this
        refine ⟨?_, this.2⟩
        intro he
        rw [he] at this
        simp at this
      · rcases List.mem_cons.mp h2 with h3 | h3
        · subst h3; exact ⟨by decide, by decide⟩
        · rcases List.mem_cons.mp h3 with h4 | h4
          · subst h4; exact ⟨by decide, by decide⟩
          · rcases List.mem_cons.mp h4 with h5 | h5
            · subst h5; exact ⟨by decide, by decide⟩
            · have := ht _ h5
              rw [c1TitleOK] at this
              simp only [Bool.and_eq_true, Bool.not_eq_true'] at this
              refine ⟨?_, this.2⟩
              intro he
              rw [he] at this
              simp at this
    · rcases List.mem_singleton.mp h with h2
      subst h2
      exact ⟨by decide, by decide⟩
  have hns : ¬ ∀ d ∈ a ++ ' ' :: '-' :: ' ' :: t ++ [' '], isSpaceJS d = true := by
    intro hall
    have hmem : '-' ∈ a ++ ' ' :: '-' :: ' ' :: t ++ [' '] := by simp
    have := hall _ hmem
    rw [show isSpaceJS '-' = false by decide] at this
    cases this
  have hp2 : p2Match (a ++ ' ' :: '-' :: ' ' :: t ++ ' ' :: '(' :: (x ++ ' ' :: ['r', 'e', 'm', 'i', 'x', ')'])) =
      some (jsTrimRight (a ++ ' ' :: '-' :: ' ' :: t ++ [' ']), x ++ [' '], none) := by
    rw [hsplit2]
    have hshape : (a ++ ' ' :: '-' :: ' ' :: t ++ [' ']) ++ '(' :: (x ++ ' ' :: ['r', 'e', 'm', 'i', 'x', ')']) =
        (a ++ ' ' :: '-' :: ' ' :: t ++ [' ']) ++ '(' :: (x ++ ' ' :: ['r', 'e', 'm', 'i', 'x', ')']) := rfl
    exact p2Match_main hx hpre hns
  have hm1mem : '-' ∈ jsTrimRight (a ++ ' ' :: '-' :: ' ' :: t ++ [' ']) := by
    apply mem_jsTrimRight_of_nonspace (by simp) (by decide)
  have hm1ne : jsTrimRight (a ++ ' ' :: '-' :: ' ' :: t ++ [' ']) ≠ [] := by
    intro h
    rw [h] at hm1mem
    cases hm1mem
  have hcond : (!(jsTrimRight (a ++ ' ' :: '-' :: ' ' :: t ++ [' '])).isEmpty &&
      !(x ++ [' ']).isEmpty) = true := by
    rw [Bool.and_eq_true]
    constructor
    · rw [Bool.not_eq_true']
      cases he : jsTrimRight (a ++ ' ' :: '-' :: ' ' :: t ++ [' ']) with
      | nil => exact absurd he hm1ne
      | cons b bs => rfl
    · rw [Bool.not_eq_true']
      cases x <;> rfl
  have htt : jsTrimList (jsTrimRight (a ++ ' ' :: '-' :: ' ' :: t ++ [' '])) =
      jsTrimList (a ++ ' ' :: '-' :: ' ' :: t) := by
    rw [jsTrimList_jsTrimRight]
    have hre : a ++ ' ' :: '-' :: ' ' :: t ++ [' '] = (a ++ ' ' :: '-' :: ' ' :: t) ++ [' '] := by
      simp
    rw [hre, jsTrimList_append_space (by decide)]
  have hrx : jsTrimList (x ++ [' ']) = jsTrimList x :=
    jsTrimList_append_space (by decide)
  rw [cascadeState, hp1, hp2]
  dsimp only
  rw [if_pos hcond, htt, hrx]

/-- C1 amended: for every title of the shape ARTIST - TITLE (X remix)
(artist part free of hyphens, opening parentheses and line terminators,
title part free of opening parentheses and line terminators, X non-empty
with no whitespace and no closing parenthesis), the cascade stops at
pattern 2 - not pattern 3 - so extractTrackInfo returns artist null, the
whole trimmed text before the parenthetical (ARTIST - TITLE) as the title,
and X as the remix, for any description. -/
theorem c1_hyphen_remix_extract (A T X : String) (desc : Option String)
    (hA : A.data.all c1ArtistOK = true) (hT : T.data.all c1TitleOK = true)
    (hX : X.data.all c1RemixOK = true) :
    extractTrackInfo (A ++ " - " ++ T ++ " (" ++ X ++ " remix)") desc =
      ⟨none, some (jsTrim (A ++ " - " ++ T)), some X⟩ := by
  have hsep : (" - " : String).data = [' ', '-', ' '] := rfl
  have hpar : (" (" : String).data = [' ', '('] := rfl
  have hrem : (" remix)" : String).data = [' ', 'r', 'e', 'm', 'i', 'x', ')'] := rfl
  have hdata : (A ++ " - " ++ T ++ " (" ++ X ++ " remix)").data =
      A.data ++ ' ' :: '-' :: ' ' :: T.data ++ ' ' :: '(' ::
        (X.data ++ ' ' :: ['r', 'e', 'm', 'i', 'x', ')']) := by
    simp [String.data_append, hsep, hpar, hrem]
  have hbase : (A ++ " - " ++ T).data = A.data ++ ' ' :: '-' :: ' ' :: T.data := by
    simp [String.data_append, hsep]
  have hcas := c1_cascade A.data T.data X.data
    (List.all_eq_true.mp hA) (List.all_eq_true.mp hT) (List.all_eq_true.mp hX)
  have hsolid : ∀ c ∈ X.data, isSpaceJS c = false := by
    intro c hc
    have := List.all_eq_true.mp hX c hc
    rw [c1RemixOK, Bool.and_eq_true] at this
    have h2 := this.2
    simpa using h2
  have hxid : jsTrimList X.data = X.data := jsTrimList_id_of_solid hsolid
  have httne : jsTrimList (A.data ++ ' ' :: '-' :: ' ' :: T.data) ≠ [] := by
    have hmem : '-' ∈ jsTrimList (A.data ++ ' ' :: '-' :: ' ' :: T.data) :=
      mem_jsTrimList_of_nonspace (by simp) (by decide)
    intro h
    rw [h] at hmem
    cases hmem
  have httf : jsFalsyStr (some (⟨jsTrimList (A.data ++ ' ' :: '-' :: ' ' :: T.data)⟩ : String)) = false := by
    rw [jsFalsyStr]
    exact mkStr_isEmpty_false httne
  have hisE : (⟨jsTrimList (A.data ++ ' ' :: '-' :: ' ' :: T.data)⟩ : String).isEmpty = false :=
    mkStr_isEmpty_false httne
  simp only [List.cons_append, List.append_assoc] at hcas hdata
  simp [extractTrackInfo, hdata, hcas, jsFalsyStr, hisE, hxid, jsTrim, hbase]

/-- C1 counterexample: on the claim's own example shape, extractTrackInfo
does not return the text before the hyphen as the artist: pattern 2 matches
first and leaves the artist null, putting the whole hyphenated text into
the title. -/
theorem c1_counterexample :
    extractTrackInfo "Daft Punk - One More Time (Radio remix)" none =
      ⟨none, some "Daft Punk - One More Time", some "Radio"⟩ ∧
    ¬ (extractTrackInfo "Daft Punk - One More Time (Radio remix)" none).artist =
        some "Daft Punk" := by
  refine ⟨by decide, by decide⟩

/-- C1 witness for the amended theorem: concrete side conditions hold and
the extraction computes as stated. -/
theorem c1_hyphen_remix_extract_witness :
    ("The Artist" : String).data.all c1ArtistOK = true ∧
    ("Song" : String).data.all c1TitleOK = true ∧
    ("Club" : String).data.all c1RemixOK = true ∧
    extractTrackInfo ("The Artist" ++ " - " ++ "Song" ++ " (" ++ "Club" ++ " remix)") none =
      ⟨none, some "The Artist - Song", some "Club"⟩ := by
  refine ⟨by decide, by decide, by decide, ?_⟩
  have h := c1_hyphen_remix_extract "The Artist" "Song" "Club" none
    (by decide) (by decide) (by decide)
  rw [h]
  have ht : jsTrim ("The Artist" ++ " - " ++ "Song") = "The Artist - Song" := by decide
  rw [ht]

theorem foldStep_provenance (listings : List DiscogsListing) :
    ∀ (conds : List String) (b0 : Option DiscogsListing),
      (conds.foldl (fun best condition =>
        match condCandidate listings condition with
        | some l =>
          match best with
          | none => some l
          | some b => if priceValue l < priceValue b then some l else best
        | none => best) b0) = b0 ∨
      ∃ c ∈ conds, ∃ l, condCandidate listings c = some l ∧
        (conds.foldl (fun best condition =>
          match condCandidate listings condition with
          | some l =>
            match best with
            | none => some l
            | some b => if priceValue l < priceValue b then some l else best
          | none => best) b0) = some l := by
  intro conds
  induction conds with
  | nil => intro b0; exact Or.inl rfl
  | cons c cs ih =>
    intro b0
    simp only [List.foldl_cons]
    cases hc : condCandidate listings c with
    | none =>
      rcases ih b0 with h | ⟨c2, hc2, l2, hl2, hfold⟩
      · exact Or.inl h
      · exact Or.inr ⟨c2, List.mem_cons_of_mem _ hc2, l2, hl2, hfold⟩
    | some l =>
      cases b0 with
      | none =>
        rcases ih (some l) with h | ⟨c2, hc2, l2, hl2, hfold⟩
        · exact Or.inr ⟨c, List.mem_cons_self .., l, hc, h⟩
        · exact Or.inr ⟨c2, List.mem_cons_of_mem _ hc2, l2, hl2, hfold⟩
      | some b =>
        dsimp only
        by_cases hlt : priceValue l < priceValue b
        · rw [if_pos hlt]
          rcases ih (some l) with h | ⟨c2, hc2, l2, hl2, hfold⟩
          · exact Or.inr ⟨c, List.mem_cons_self .., l, hc, h⟩
          · exact Or.inr ⟨c2, List.mem_cons_of_mem _ hc2, l2, hl2, hfold⟩
        · rw [if_neg hlt]
          rcases ih (some b) with h | ⟨c2, hc2, l2, hl2, hfold⟩
          · exact Or.inl h
          · exact Or.inr ⟨c2, List.mem_cons_of_mem _ hc2, l2, hl2, hfold⟩

theorem foldStep_le_acc (listings : List DiscogsListing) :
    ∀ (conds : List String) (v : DiscogsListing),
      ∃ r, (conds.foldl (fun best condition =>
        match condCandidate listings condition with
        | some l =>
          match best with
          | none => some l
          | some b => if priceValue l < priceValue b then some l else best
        | none => best) (some v)) = some r ∧ priceValue r ≤ priceValue v := by
  intro conds
  induction conds with
  | nil => intro v; exact ⟨v, rfl, le_refl _⟩
  | cons c cs ih =>
    intro v
    simp only [List.foldl_cons]
    cases hc : condCandidate listings c with
    | none => exact ih v
    | some l =>
      dsimp only
      by_cases hlt : priceValue l < priceValue v
      · rw [if_pos hlt]
        rcases ih l with ⟨r, hr, hle⟩
        exact ⟨r, hr, le_trans hle (le_of_lt hlt)⟩
      · rw [if_neg hlt]
        exact ih v

theorem foldStep_min (listings : List DiscogsListing) :
    ∀ (conds : List String) (b0 : Option DiscogsListing) (c : String) (l : DiscogsListing),
      c ∈ conds → condCandidate listings c = some l →
      ∃ r, (conds.foldl (fun best condition =>
        match condCandidate listings condition with
        | some l =>
          match best with
          | none => some l
          | some b => if priceValue l < priceValue b then some l else best
        | none => best) b0) = some r ∧ priceValue r ≤ priceValue l := by
  intro conds
  induction conds with
  | nil => intro b0 c l hc; cases hc
  | cons c0 cs ih =>
    intro b0 c l hc hcand
    simp only [List.foldl_cons]
    rcases List.mem_cons.mp hc with heq | hmem
    · subst heq
      rw [hcand]
      cases b0 with
      | none => exact foldStep_le_acc listings cs l
      | some b =>
        dsimp only
        by_cases hlt : priceValue l < priceValue b
        · rw [if_pos hlt]
          exact foldStep_le_acc listings cs l
        · rw [if_neg hlt]
          rcases foldStep_le_acc listings cs b with ⟨r, hr, hle⟩
          exact ⟨r, hr, le_trans hle (not_lt.mp hlt)⟩
    · cases hc0 : condCandidate listings c0 with
      | none => exact ih b0 c l hmem hcand
      | some l0 =>
        cases b0 with
        | none => exact ih (some l0) c l hmem hcand
        | some b =>
          dsimp only
          by_cases hlt : priceValue l0 < priceValue b
          · rw [if_pos hlt]; exact ih (some l0) c l hmem hcand
          · rw [if_neg hlt]; exact ih (some b) c l hmem hcand

theorem foldStep_none (listings : List DiscogsListing) :
    ∀ (conds : List String), (∀ c ∈ conds, condCandidate listings c = none) →
      (conds.foldl (fun best condition =>
        match condCandidate listings condition with
        | some l =>
          match best with
          | none => some l
          | some b => if priceValue l < priceValue b then some l else best
        | none => best) none) = none := by
  intro conds
  induction conds with
  | nil => intro _; rfl
  | cons c cs ih =>
    intro h
    simp only [List.foldl_cons]
    rw [h c (List.mem_cons_self ..)]
    exact ih (fun d hd => h d (List.mem_cons_of_mem _ hd))

theorem mem_sortInsert {y x : DiscogsListing} : ∀ {l : List DiscogsListing},
    y ∈ sortInsert x l ↔ y = x ∨ y ∈ l := by
  intro l
  induction l with
  | nil => simp [sortInsert]
  | cons a l ih =>
    rw [sortInsert]
    by_cases h : priceValue a ≤ priceValue x
    · rw [if_pos h]
      rw [List.mem_cons, ih, List.mem_cons]
      tauto
    · rw [if_neg h]
      simp only [List.mem_cons]

theorem mem_sortByPrice {y : DiscogsListing} : ∀ {l : List DiscogsListing},
    y ∈ sortByPrice l ↔ y ∈ l := by
  intro l
  induction l with
  | nil => simp [sortByPrice]
  | cons a l ih =>
    rw [sortByPrice, mem_sortInsert, ih, List.mem_cons]

theorem sortInsert_ne_nil (x : DiscogsListing) : ∀ (l : List DiscogsListing),
    sortInsert x l ≠ [] := by
  intro l
  cases l with
  | nil => intro h; cases h
  | cons a l =>
    rw [sortInsert]
    by_cases h : priceValue a ≤ priceValue x
    · rw [if_pos h]; intro h2; cases h2
    · rw [if_neg h]; intro h2; cases h2

theorem sortByPrice_head_min : ∀ (l : List DiscogsListing) (b : DiscogsListing)
    (rest : List DiscogsListing), sortByPrice l = b :: rest →
    ∀ y ∈ l, priceValue b ≤ priceValue y := by
  intro l
  induction l with
  | nil => intro b rest h; cases h
  | cons x xs ih =>
    intro b rest h y hy
    rw [sortByPrice] at h
    cases hs : sortByPrice xs with
    | nil =>
      rw [hs] at h
      rw [sortInsert] at h
      injection h with h1 h2
      rcases List.mem_cons.mp hy with h3 | h3
      · rw [← h1, h3]
      · rw [← mem_sortByPrice, hs] at h3
        cases h3
    | cons c cs =>
      rw [hs] at h
      rw [sortInsert] at h
      by_cases hle : priceValue c ≤ priceValue x
      · rw [if_pos hle] at h
        injection h with h1 h2
        rcases List.mem_cons.mp hy with h3 | h3
        · rw [← h1, h3]; exact hle
        · rw [← h1]; exact ih c cs hs y h3
      · rw [if_neg hle] at h
        injection h with h1 h2
        rcases List.mem_cons.mp hy with h3 | h3
        · rw [← h1, h3]
        · have hcy := ih c cs hs y h3
          have hxc : priceValue x ≤ priceValue c := le_of_not_le hle
          rw [← h1]
          exact le_trans hxc hcy

/-- C5 counterexample: with two Mint listings priced 10 then 5, the
selection takes the first Mint listing (price 10), not the cheapest
preferred-condition listing (price 5), because the per-condition candidate
is the first matching listing in array order. -/
theorem c5_counterexample :
    selectBestListing [⟨"Mint (M)", some ⟨10, "USD"⟩⟩, ⟨"Mint (M)", some ⟨5, "USD"⟩⟩] =
      some ⟨"Mint (M)", some ⟨10, "USD"⟩⟩ ∧
    (⟨"Mint (M)", some ⟨5, "USD"⟩⟩ : DiscogsListing) ∈
      [(⟨"Mint (M)", some ⟨10, "USD"⟩⟩ : DiscogsListing), ⟨"Mint (M)", some ⟨5, "USD"⟩⟩] ∧
    "Mint (M)" ∈ preferredConditions ∧
    positivePrice ⟨"Mint (M)", some ⟨5, "USD"⟩⟩ = true ∧
    priceValue ⟨"Mint (M)", some ⟨5, "USD"⟩⟩ <
      priceValue ⟨"Mint (M)", some ⟨10, "USD"⟩⟩ := by
  refine ⟨by decide, by decide, by decide, by decide, by decide⟩

theorem selectBest_preferred (listings : List DiscogsListing)
    (hpp : hasPreferredPositive listings = true) :
    ∃ r, selectBestListing listings = some r ∧
      (∃ c ∈ preferredConditions, condCandidate listings c = some r) ∧
      (∀ c ∈ preferredConditions, ∀ l, condCandidate listings c = some l →
        priceValue r ≤ priceValue l) := by
  rw [hasPreferredPositive, List.any_eq_true] at hpp
  rcases hpp with ⟨c0, hc0, hsome⟩
  rcases Option.isSome_iff_exists.mp hsome with ⟨l0, hl0⟩
  rcases foldStep_min listings preferredConditions none c0 l0 hc0 hl0 with ⟨r, hfold, _⟩
  have hfold' : preferredFold listings = some r := hfold
  refine ⟨r, ?_, ?_, ?_⟩
  · rw [selectBestListing, hfold']
  · rcases foldStep_provenance listings preferredConditions none with h | ⟨c2, hc2, l2, hl2, hf2⟩
    · have hx : preferredFold listings = none := h
      rw [hfold'] at hx; cases hx
    · have hx : preferredFold listings = some l2 := hf2
      rw [hfold'] at hx
      injection hx with hlr
      exact ⟨c2, hc2, hlr ▸ hl2⟩
  · intro c hc l hcand
    rcases foldStep_min listings preferredConditions none c l hc hcand with ⟨r2, hf2, hle⟩
    have hx : preferredFold listings = some r2 := hf2
    rw [hfold'] at hx
    injection hx with hrr
    exact hrr ▸ hle

theorem selectBest_fallback (listings : List DiscogsListing)
    (hpp : hasPreferredPositive listings = false)
    (hex : ∃ l ∈ listings, positivePrice l = true) :
    ∃ r, selectBestListing listings = some r ∧ r ∈ listings ∧
      positivePrice r = true ∧
      (∀ l ∈ listings, positivePrice l = true → priceValue r ≤ priceValue l) := by
  rcases hex with ⟨l0, hl0, hpos0⟩
  have hnone : ∀ c ∈ preferredConditions, condCandidate listings c = none := by
    intro c hc
    rw [hasPreferredPositive, List.any_eq_false] at hpp
    have := hpp c hc
    cases he : condCandidate listings c with
    | none => rfl
    | some l => rw [he] at this; cases this rfl
  have hfold : preferredFold listings = none := foldStep_none listings preferredConditions hnone
  have hmem0 : l0 ∈ listings.filter positivePrice := List.mem_filter.mpr ⟨hl0, hpos0⟩
  have hlen : 0 < listings.length := by
    cases listings with
    | nil => cases hl0
    | cons a as => simp
  have hlenf : 0 < (listings.filter positivePrice).length := by
    cases he : listings.filter positivePrice with
    | nil => rw [he] at hmem0; cases hmem0
    | cons a as => simp
  cases hsort : sortByPrice (listings.filter positivePrice) with
  | nil =>
    exfalso
    cases he : listings.filter positivePrice with
    | nil => rw [he] at hmem0; cases hmem0
    | cons a as =>
      rw [he, sortByPrice] at hsort
      exact sortInsert_ne_nil a (sortByPrice as) hsort
  | cons b rest =>
    have hbmem : b ∈ listings.filter positivePrice := by
      rw [← mem_sortByPrice, hsort]
      exact List.mem_cons_self ..
    rcases List.mem_filter.mp hbmem with ⟨hbl, hbpos⟩
    refine ⟨b, ?_, hbl, hbpos, ?_⟩
    · rw [selectBestListing, hfold, if_pos hlen, if_pos hlenf, hsort]
      rfl
    · intro l hl hlpos
      exact sortByPrice_head_min (listings.filter positivePrice) b rest hsort l
        (List.mem_filter.mpr ⟨hl, hlpos⟩)

theorem selectBest_singleton (l : DiscogsListing) (hpos : positivePrice l = true) :
    selectBestListing [l] = some l := by
  cases hpp : hasPreferredPositive [l] with
  | true =>
    rcases selectBest_preferred [l] hpp with ⟨r, hsel, ⟨c, _, hcand⟩, _⟩
    have hrmem : r ∈ [l] := List.mem_of_find?_eq_some hcand
    rcases List.mem_singleton.mp hrmem with h
    rw [hsel, h]
  | false =>
    rcases selectBest_fallback [l] hpp ⟨l, List.mem_singleton.mpr rfl, hpos⟩ with
      ⟨r, hsel, hrmem, _, _⟩
    rcases List.mem_singleton.mp hrmem with h
    rw [hsel, h]

/-- C5 amended: (1) when some preferred condition has a positive-price
candidate, the selection returns the first positive-price listing of one of
the ranked conditions, cheapest among those per-condition first candidates
(not the cheapest preferred-condition listing overall); (2) when no
preferred condition has a positive-price candidate but some listing has a
positive price, the selection returns the globally cheapest positive-price
listing; (3) a release whose only listing has a positive price at any
condition yields that listing, and the aggregation entry built from it is
available. -/
theorem c5_selection (listings : List DiscogsListing) :
    (hasPreferredPositive listings = true →
      ∃ r, selectBestListing listings = some r ∧
        (∃ c ∈ preferredConditions, condCandidate listings c = some r) ∧
        (∀ c ∈ preferredConditions, ∀ l, condCandidate listings c = some l →
          priceValue r ≤ priceValue l)) ∧
    (hasPreferredPositive listings = false →
      (∃ l ∈ listings, positivePrice l = true) →
      ∃ r, selectBestListing listings = some r ∧ r ∈ listings ∧
        positivePrice r = true ∧
        (∀ l ∈ listings, positivePrice l = true → priceValue r ≤ priceValue l)) ∧
    (∀ l : DiscogsListing, positivePrice l = true → ∀ a t : String,
      searchDiscogs (listingsDiscogsApi [l]) a t =
        some ⟨some ("https://www.discogs.com/release/" ++ toString 7),
          l.price, some l.condition⟩ ∧
      buildMarketplaceResults (searchDiscogs (listingsDiscogsApi [l]) a t)
          none none none =
        [⟨"discogs", some ("https://www.discogs.com/release/" ++ toString 7),
          l.price, none, true⟩]) := by
  refine ⟨selectBest_preferred listings, selectBest_fallback listings, ?_⟩
  intro l hpos a t
  have hsingle := selectBest_singleton l hpos
  have hstep : searchDiscogs (listingsDiscogsApi [l]) a t =
      (match selectBestListing [l] with
       | some best => some ⟨some ("https://www.discogs.com/release/" ++ toString 7),
           best.price, some best.condition⟩
       | none => some ⟨some ("https://www.discogs.com/release/" ++ toString 7),
           none, none⟩) := rfl
  have hsd : searchDiscogs (listingsDiscogsApi [l]) a t =
      some ⟨some ("https://www.discogs.com/release/" ++ toString 7),
        l.price, some l.condition⟩ := by
    rw [hstep, hsingle]
  have hne : l.price ≠ none := by
    rw [positivePrice] at hpos
    cases hp : l.price with
    | none => rw [hp] at hpos; cases hpos
    | some p => intro h; cases h
  refine ⟨hsd, ?_⟩
  rw [hsd]
  have hb : buildMarketplaceResults
      (some ⟨some ("https://www.discogs.com/release/" ++ toString 7),
        l.price, some l.condition⟩) none none none =
      [⟨"discogs", some ("https://www.discogs.com/release/" ++ toString 7),
        l.price, none, decide (l.price ≠ none)⟩] := rfl
  rw [hb]
  simp [hne]

/-- C5 witness: at a release with one positive-price listing at the
non-preferred condition Fair, the amended theorem's hypotheses hold and it
yields that listing. -/
theorem c5_selection_witness :
    (hasPreferredPositive [(⟨"Fair (F)", some ⟨3, "USD"⟩⟩ : DiscogsListing)] = false) ∧
    (∃ r, selectBestListing [(⟨"Fair (F)", some ⟨3, "USD"⟩⟩ : DiscogsListing)] = some r ∧
      r ∈ [(⟨"Fair (F)", some ⟨3, "USD"⟩⟩ : DiscogsListing)] ∧ positivePrice r = true ∧
      (∀ l ∈ [(⟨"Fair (F)", some ⟨3, "USD"⟩⟩ : DiscogsListing)],
        positivePrice l = true → priceValue r ≤ priceValue l)) ∧
    searchDiscogs (listingsDiscogsApi [(⟨"Fair (F)", some ⟨3, "USD"⟩⟩ : DiscogsListing)]) "A" "T" =
      some ⟨some ("https://www.discogs.com/release/" ++ toString 7),
        some ⟨3, "USD"⟩, some "Fair (F)"⟩ := by
  have h := c5_selection [(⟨"Fair (F)", some ⟨3, "USD"⟩⟩ : DiscogsListing)]
  exact ⟨by decide,
    h.2.1 (by decide) ⟨_, List.mem_singleton.mpr rfl, by decide⟩,
    (h.2.2 ⟨"Fair (F)", some ⟨3, "USD"⟩⟩ (by decide) "A" "T").1⟩

theorem isEmpty_false_of_ne {s : String} (h : s ≠ "") : s.isEmpty = false := by
  cases he : s.isEmpty with
  | false => rfl
  | true => exact absurd ((String.isEmpty_iff s).mp he) h

theorem searchMarketplace_ok (api : DiscogsApi) (uid a t : String)
    (r ptid : Option String) (ha : a.isEmpty = false) (ht : t.isEmpty = false) :
    searchMarketplace api (some uid) ⟨some a, some t, r, some uid, ptid⟩ =
      .ok ⟨true,
        buildMarketplaceResults (searchDiscogs api a t) (searchBeatport a t)
          (searchBandcamp a t) (searchJuno a t),
        match r with
        | some rr => if rr.isEmpty then a ++ " " ++ t else a ++ " " ++ t ++ " " ++ rr
        | none => a ++ " " ++ t⟩ := by
  simp [searchMarketplace, jsFalsyStr, ha, ht]

theorem searchDiscogs_none_of_search_error {api : DiscogsApi} {a t : String}
    (h : ∀ q k, api.searchReleases q k = .error ()) :
    searchDiscogs api a t = none := by
  rcases retryAux_allFail (api.searchReleases (discogsSearchQuery a t)) 1000 3 0 none
      (by omega) (fun k _ _ => ⟨(), h _ k⟩) with ⟨e, _, hres, _, _⟩
  have hres2 : (retryWithBackoff (api.searchReleases (discogsSearchQuery a t)) 3 1000).result =
      .error (some e) := hres
  unfold searchDiscogs
  rw [hres2]

/-- C2: with the only fallible provider (the physical-release provider)
erroring on every attempt - the only realizable strict erroring subset,
since the three digital store functions are total - the aggregation still
returns exactly one listing for each non-failing provider in registration
order, omits the failed provider without any error entry, and returns
successfully rather than throwing. -/
theorem c2_fail_soft (api : DiscogsApi) (uid a t : String) (r ptid : Option String)
    (ha : a ≠ "") (ht : t ≠ "")
    (hfail : ∀ q k, api.searchReleases q k = .error ()) :
    ∃ res, searchMarketplace api (some uid) ⟨some a, some t, r, some uid, ptid⟩ =
        .ok res ∧
      res.marketplaceResults = [beatportEntry a t, bandcampEntry a t, junoEntry a t] := by
  rw [searchMarketplace_ok api uid a t r ptid (isEmpty_false_of_ne ha) (isEmpty_false_of_ne ht)]
  refine ⟨_, rfl, ?_⟩
  rw [searchDiscogs_none_of_search_error hfail]
  rfl

/-- C2 witness: at the concrete always-rejecting Discogs API the hypotheses
hold and the aggregation returns the three digital listings. -/
theorem c2_fail_soft_witness :
    ("A" : String) ≠ "" ∧ ("T" : String) ≠ "" ∧
    (∀ q k, failingDiscogsApi.searchReleases q k = .error ()) ∧
    (∃ res, searchMarketplace failingDiscogsApi (some "u1")
        ⟨some "A", some "T", none, some "u1", none⟩ = .ok res ∧
      res.marketplaceResults = [beatportEntry "A" "T", bandcampEntry "A" "T", junoEntry "A" "T"]) := by
  exact ⟨by decide, by decide, fun q k => rfl,
    c2_fail_soft failingDiscogsApi "u1" "A" "T" none none (by decide) (by decide)
      (fun q k => rfl)⟩

/-- C3: at a concrete valid request (authenticated caller u1, matching
owner, well-formed playlist URL, configured API key) whose video listing is
empty, the caller observes an HttpsError with code internal (the catch-all
rewrapped the intended not-found error), not the distinct not-found code
the specification promises. -/
theorem c3_empty_playlist_internal :
    processPlaylist emptyPlaylistWorld emptyFuse
        ⟨some "https://www.youtube.com/playlist?list=PL123", some "u1"⟩ =
      .error ⟨"internal", "Playlist is empty or not accessible"⟩ ∧
    ("internal" : String) ≠ "not-found" := by
  refine ⟨rfl, by decide⟩

/-- C4 counterexample: at a concrete call with remix R, the aggregation's
provider listings are built from the query A T alone - the beatport URL
encodes A T, which differs from the URL the combined query A T R would
give - while only the echoed searched string contains the remix. -/
theorem c4_counterexample :
    searchMarketplace failingDiscogsApi (some "u1")
        ⟨some "A", some "T", some "R", some "u1", none⟩ =
      .ok ⟨true, [beatportEntry "A" "T", bandcampEntry "A" "T", junoEntry "A" "T"], "A T R"⟩ ∧
    (beatportEntry "A" "T").url = some "https://www.beatport.com/search?q=A%20T" ∧
    beatportEntry "A" "T" ≠ beatportEntry "A" "T R" := by
  refine ⟨?_, by decide, by decide⟩
  rw [searchMarketplace_ok failingDiscogsApi "u1" "A" "T" (some "R") none
    (by decide) (by decide)]
  rw [searchDiscogs_none_of_search_error (fun q k => rfl)]
  rfl

/-- C4 amended: the remix argument is never part of any provider's query:
for every valid call the assembled listings with remix present are
identical to those of the same call without remix (every provider is
invoked with artist and title only), and the remix appears solely in the
echoed searched string. -/
theorem c4_remix_ignored (api : DiscogsApi) (uid a t rr : String)
    (ptid ptid2 : Option String) (ha : a ≠ "") (ht : t ≠ "") :
    ∃ res1 res2,
      searchMarketplace api (some uid) ⟨some a, some t, some rr, some uid, ptid⟩ = .ok res1 ∧
      searchMarketplace api (some uid) ⟨some a, some t, none, some uid, ptid2⟩ = .ok res2 ∧
      res1.marketplaceResults = res2.marketplaceResults ∧
      res1.searched = (if rr.isEmpty then a ++ " " ++ t else a ++ " " ++ t ++ " " ++ rr) ∧
      res2.searched = a ++ " " ++ t := by
  rw [searchMarketplace_ok api uid a t (some rr) ptid
    (isEmpty_false_of_ne ha) (isEmpty_false_of_ne ht)]
  rw [searchMarketplace_ok api uid a t none ptid2
    (isEmpty_false_of_ne ha) (isEmpty_false_of_ne ht)]
  exact ⟨_, _, rfl, rfl, rfl, rfl, rfl⟩

/-- C4 witness: concrete instantiation of the amended theorem. -/
theorem c4_remix_ignored_witness :
    ("Artist" : String) ≠ "" ∧ ("Title" : String) ≠ "" ∧
    (∃ res1 res2,
      searchMarketplace failingDiscogsApi (some "u2")
        ⟨some "Artist", some "Title", some "Dub", some "u2", none⟩ = .ok res1 ∧
      searchMarketplace failingDiscogsApi (some "u2")
        ⟨some "Artist", some "Title", none, some "u2", none⟩ = .ok res2 ∧
      res1.marketplaceResults = res2.marketplaceResults ∧
      res1.searched = (if ("Dub" : String).isEmpty then "Artist" ++ " " ++ "Title"
        else "Artist" ++ " " ++ "Title" ++ " " ++ "Dub") ∧
      res2.searched = "Artist" ++ " " ++ "Title") := by
  exact ⟨by decide, by decide,
    c4_remix_ignored failingDiscogsApi "u2" "Artist" "Title" "Dub" none none
      (by decide) (by decide)⟩

/-- C10: each digital-store provider is total: it returns a result whose
URL is the deterministic search URL built from artist and title, with null
price and format and available false (the catch branch returning null is
unreachable, its try body being a pure URL construction); consequently
every valid aggregation call yields exactly one listing per digital-store
provider, and the aggregator's output is never empty. -/
theorem c10_digital_total (api : DiscogsApi) (uid a t : String)
    (r ptid : Option String) (ha : a ≠ "") (ht : t ≠ "") :
    searchBeatport a t = some ⟨some ("https://www.beatport.com/search?q=" ++
      encodeURIComponent (a ++ " " ++ t)), none, none, false⟩ ∧
    searchBandcamp a t = some ⟨some ("https://bandcamp.com/search?q=" ++
      encodeURIComponent (a ++ " " ++ t)), none, none, false⟩ ∧
    searchJuno a t = some ⟨some ("https://www.junodownload.com/search/?q[all][]=" ++
      encodeURIComponent (a ++ " " ++ t)), none, none, false⟩ ∧
    ∃ res, searchMarketplace api (some uid) ⟨some a, some t, r, some uid, ptid⟩ = .ok res ∧
      (res.marketplaceResults.filter (fun e => e.store == "beatport")).length = 1 ∧
      (res.marketplaceResults.filter (fun e => e.store == "bandcamp")).length = 1 ∧
      (res.marketplaceResults.filter (fun e => e.store == "juno")).length = 1 ∧
      res.marketplaceResults ≠ [] := by
  refine ⟨rfl, rfl, rfl, ?_⟩
  rw [searchMarketplace_ok api uid a t r ptid
    (isEmpty_false_of_ne ha) (isEmpty_false_of_ne ht)]
  refine ⟨_, rfl, ?_⟩
  cases hd : searchDiscogs api a t with
  | none => exact ⟨rfl, rfl, rfl, by intro h; cases h⟩
  | some v => exact ⟨rfl, rfl, rfl, by intro h; cases h⟩

/-- C10 witness: concrete instantiation. -/
theorem c10_digital_total_witness :
    ("A2" : String) ≠ "" ∧ ("T2" : String) ≠ "" ∧
    (searchBeatport "A2" "T2" = some ⟨some ("https://www.beatport.com/search?q=" ++
        encodeURIComponent ("A2" ++ " " ++ "T2")), none, none, false⟩ ∧
      searchBandcamp "A2" "T2" = some ⟨some ("https://bandcamp.com/search?q=" ++
        encodeURIComponent ("A2" ++ " " ++ "T2")), none, none, false⟩ ∧
      searchJuno "A2" "T2" = some ⟨some ("https://www.junodownload.com/search/?q[all][]=" ++
        encodeURIComponent ("A2" ++ " " ++ "T2")), none, none, false⟩ ∧
      ∃ res, searchMarketplace failingDiscogsApi (some "u3")
          ⟨some "A2", some "T2", none, some "u3", none⟩ = .ok res ∧
        (res.marketplaceResults.filter (fun e => e.store == "beatport")).length = 1 ∧
        (res.marketplaceResults.filter (fun e => e.store == "bandcamp")).length = 1 ∧
        (res.marketplaceResults.filter (fun e => e.store == "juno")).length = 1 ∧
        res.marketplaceResults ≠ []) := by
  exact ⟨by decide, by decide,
    c10_digital_total failingDiscogsApi "u3" "A2" "T2" none none (by decide) (by decide)⟩
